import Mathlib

/-!
# Verification of the portablebrains ingestion pipeline

A shallow embedding, in Lean 4, of the core of the `portablebrains`
document-ingestion program (Rust), together with theorems settling the
frozen specification claims.  Text is modelled as `List Char`; byte
counts (Rust `str::len` / slice `len`) are modelled by summing the
UTF-8 size of each character.  External collaborators (binary format
parsers, the embedding backend, Unicode tables beyond the Latin-1
block) are modelled as parameters or as faithful finite tables.
-/

set_option autoImplicit false

namespace PortableBrains

/-- Text, modelled as a list of characters. -/
abbrev Str := List Char

/-- Number of bytes of the UTF-8 encoding of one character
(how Rust `String::len` counts a `char`). -/
def charBytes (c : Char) : Nat :=
  if c.toNat < 0x80 then 1
  else if c.toNat < 0x800 then 2
  else if c.toNat < 0x10000 then 3
  else 4

/-- Rust `str::len`: the UTF-8 byte length of a string. -/
def strLen (s : Str) : Nat := (s.map charBytes).sum

/-- Rust `char::is_whitespace` (and the regex class `\s`): the Unicode
`White_Space` property, a fixed 25-element table. -/
def isRustWs (c : Char) : Bool :=
  let n := c.toNat
  (0x9 ≤ n && n ≤ 0xD) || n == 0x20 || n == 0x85 || n == 0xA0 ||
  n == 0x1680 || (0x2000 ≤ n && n ≤ 0x200A) || n == 0x2028 ||
  n == 0x2029 || n == 0x202F || n == 0x205F || n == 0x3000

/-- Rust `char::is_control`: the Unicode `Cc` category
(C0 and C1 control blocks). -/
def isCtl (c : Char) : Bool :=
  let n := c.toNat
  n ≤ 0x1F || (0x7F ≤ n && n ≤ 0x9F)

/-- Rust `char::is_uppercase` (Unicode `Uppercase` property), exact on
the Basic Latin and Latin-1 blocks; characters beyond those blocks are
outside the inputs considered in this development. -/
def isUpperRust (c : Char) : Bool :=
  let n := c.toNat
  (0x41 ≤ n && n ≤ 0x5A) || (0xC0 ≤ n && n ≤ 0xD6) || (0xD8 ≤ n && n ≤ 0xDE)

/-- ASCII lowercasing, the fragment of Rust `str::to_lowercase` needed
for extension matching. -/
def toLowerRust (c : Char) : Char :=
  if 0x41 ≤ c.toNat ∧ c.toNat ≤ 0x5A then Char.ofNat (c.toNat + 32) else c

/-- Rust `str::trim`: remove leading and trailing `White_Space`
characters. -/
def trim (s : Str) : Str :=
  ((((s.dropWhile isRustWs).reverse).dropWhile isRustWs).reverse)

/-- Rust `str::split('\n')`: all pieces between newline characters,
empty pieces included. -/
def splitNl : Str → List Str
  | [] => [[]]
  | c :: cs =>
    if c = '\n' then [] :: splitNl cs
    else
      match splitNl cs with
      | [] => [[c]]
      | p :: ps => (c :: p) :: ps

/-- Remove one trailing carriage return, as Rust `str::lines` does on
each line. -/
def stripTrailingCr (s : Str) : Str :=
  match s.reverse with
  | '\r' :: rest => rest.reverse
  | _ => s

/-- Rust `str::lines`: split on `'\n'`, drop a final empty piece, strip
one trailing `'\r'` from every line. -/
def linesOf (s : Str) : List Str :=
  if s = [] then []
  else
    let ps := splitNl s
    let ps := if ps.getLast? = some [] then ps.dropLast else ps
    ps.map stripTrailingCr

/-- One pass of the regex `\s+ -> " "` replacement: each maximal run of
whitespace becomes a single space.  `prevWs` records whether the
previous character belonged to a whitespace run. -/
def collapseWsAux (prevWs : Bool) : Str → Str
  | [] => []
  | c :: cs =>
    if isRustWs c then
      if prevWs then collapseWsAux true cs
      else ' ' :: collapseWsAux true cs
    else c :: collapseWsAux false cs

/-- `cleanup_regex.replace_all(text, " ")` from `DocumentProcessor`. -/
def collapseWs (s : Str) : Str := collapseWsAux false s

/-- `DocumentProcessor::cleanup_text`: collapse whitespace runs, drop
control characters other than newline and tab, split on newlines, trim
each line, drop empty lines, re-join with a blank line. -/
def cleanup_text (t : Str) : Str :=
  List.intercalate ['\n', '\n']
    (((splitNl ((collapseWs t).filter
        (fun c => !(isCtl c) || c = '\n' || c = '\t'))).map trim).filter
      (fun l => l ≠ []))

/-! ## Document formats and extraction (`document_processor.rs`) -/

/-- `DocumentFormat` from `document_processor.rs`. -/
inductive DocumentFormat where
  | pdf | text | html | docx | pptx | xlsx
deriving DecidableEq, Repr

/-- `DocumentFormat::from_extension`: lowercase the extension and look
it up in the fixed table. -/
def DocumentFormat.from_extension (e : Str) : Option DocumentFormat :=
  let l := e.map toLowerRust
  if l = "pdf".toList then some .pdf
  else if l = "txt".toList ∨ l = "text".toList then some .text
  else if l = "html".toList ∨ l = "htm".toList then some .html
  else if l = "docx".toList then some .docx
  else if l = "pptx".toList then some .pptx
  else if l = "xlsx".toList then some .xlsx
  else none

/-- The configuration fields of `DocumentProcessor`. -/
structure Proc where
  chunk_size : Nat
  overlap : Nat
  max_file_size : Nat
  max_text_length : Nat
deriving DecidableEq, Repr

/-- `DocumentProcessor::new()`. -/
def Proc.new : Proc := ⟨512, 50, 100 * 1024 * 1024, 10000000⟩

/-- `DocumentProcessor::with_limits(...)` as called by `main.rs` for
ingestion. -/
def Proc.ingest : Proc := ⟨800, 100, 50 * 1024 * 1024, 5000000⟩

/-- Extraction errors; the `anyhow` error strings of the source are
modelled as distinguishable constructors. -/
inductive ExtractErr where
  | fileTooLarge (size maxSize : Nat)
  | unsupportedFormat (ext : Str)
  | parseFailed (format : DocumentFormat)
  | noTextExtracted
deriving DecidableEq, Repr

/-- The external binary-format parsers (lopdf, scraper, zip/quick-xml,
calamine, UTF-8 decoding).  They are outside the core (spec section 6);
the core consumes them as black boxes.  `loadPdf` yields the per-page
extraction results (`none` = that page's extraction failed and is
skipped). -/
structure Parsers where
  loadPdf : List Nat → Except Unit (List (Option Str))
  decodeUtf8Lossy : List Nat → Str
  parseHtml : List Nat → Except Unit Str
  parseDocx : List Nat → Except Unit Str
  parsePptx : List Nat → Except Unit Str
  parseXlsx : List Nat → Except Unit Str

/-- The page-accumulation loop of `extract_text_from_pdf`: stop once the
accumulated byte length exceeds `max_text_length`; append a fitting
page followed by a newline; on an overflowing page append only the
prefix of characters that fits, then stop; skip failed pages. -/
def pdfAccum (cfg : Proc) : List (Option Str) → Str → Str
  | [], acc => acc
  | p :: ps, acc =>
    if strLen acc > cfg.max_text_length then acc
    else
      match p with
      | some pageText =>
        if strLen acc + strLen pageText ≤ cfg.max_text_length then
          pdfAccum cfg ps (acc ++ pageText ++ ['\n'])
        else acc ++ pageText.take (cfg.max_text_length - strLen acc)
      | none => pdfAccum cfg ps acc

/-- `DocumentProcessor::extract_text_from_pdf`: size gate, then load,
page loop, empty check, cleanup. -/
def extract_text_from_pdf (P : Parsers) (cfg : Proc) (pdf_data : List Nat) :
    Except ExtractErr Str :=
  if pdf_data.length > cfg.max_file_size then
    .error (.fileTooLarge pdf_data.length cfg.max_file_size)
  else
    match P.loadPdf pdf_data with
    | .error _ => .error (.parseFailed .pdf)
    | .ok pages =>
      let textContent := pdfAccum cfg pages []
      if trim textContent = [] then .error .noTextExtracted
      else .ok (cleanup_text textContent)

/-- Truncation to `max_text_length`, shared by the non-PDF extractors:
compare the byte length, then keep a prefix counted in characters. -/
def truncateText (cfg : Proc) (s : Str) : Str :=
  if strLen s > cfg.max_text_length then s.take cfg.max_text_length else s

/-- `extract_text_from_text`: lossy UTF-8 decode, cleanup, truncate. -/
def extract_text_from_text (P : Parsers) (cfg : Proc) (d : List Nat) :
    Except ExtractErr Str :=
  .ok (truncateText cfg (cleanup_text (P.decodeUtf8Lossy d)))

/-- `extract_text_from_html`: DOM text (external), cleanup, truncate. -/
def extract_text_from_html (P : Parsers) (cfg : Proc) (d : List Nat) :
    Except ExtractErr Str :=
  match P.parseHtml d with
  | .error _ => .error (.parseFailed .html)
  | .ok raw => .ok (truncateText cfg (cleanup_text raw))

/-- `extract_text_from_docx`: archive text (external), cleanup,
truncate. -/
def extract_text_from_docx (P : Parsers) (cfg : Proc) (d : List Nat) :
    Except ExtractErr Str :=
  match P.parseDocx d with
  | .error _ => .error (.parseFailed .docx)
  | .ok raw => .ok (truncateText cfg (cleanup_text raw))

/-- `extract_text_from_pptx`: slide text (external), cleanup,
truncate. -/
def extract_text_from_pptx (P : Parsers) (cfg : Proc) (d : List Nat) :
    Except ExtractErr Str :=
  match P.parsePptx d with
  | .error _ => .error (.parseFailed .pptx)
  | .ok raw => .ok (truncateText cfg (cleanup_text raw))

/-- `extract_text_from_xlsx`: worksheet text (external), cleanup,
truncate. -/
def extract_text_from_xlsx (P : Parsers) (cfg : Proc) (d : List Nat) :
    Except ExtractErr Str :=
  match P.parseXlsx d with
  | .error _ => .error (.parseFailed .xlsx)
  | .ok raw => .ok (truncateText cfg (cleanup_text raw))

/-- `DocumentProcessor::extract_text_from_document`: the file-size gate
comes first, then format dispatch on the (path-derived) extension, then
the final emptiness check. -/
def extract_text_from_document (P : Parsers) (cfg : Proc) (ext : Str)
    (file_data : List Nat) : Except ExtractErr Str :=
  if file_data.length > cfg.max_file_size then
    .error (.fileTooLarge file_data.length cfg.max_file_size)
  else
    match DocumentFormat.from_extension ext with
    | none => .error (.unsupportedFormat ext)
    | some fmt =>
      let r :=
        match fmt with
        | .pdf => extract_text_from_pdf P cfg file_data
        | .text => extract_text_from_text P cfg file_data
        | .html => extract_text_from_html P cfg file_data
        | .docx => extract_text_from_docx P cfg file_data
        | .pptx => extract_text_from_pptx P cfg file_data
        | .xlsx => extract_text_from_xlsx P cfg file_data
      match r with
      | .error e => .error e
      | .ok text => if trim text = [] then .error .noTextExtracted else .ok text

/-! ## Sentence splitting and chunking (`document_processor.rs`) -/

/-- Emission of a candidate sentence: trim, keep only when nonempty and
longer than 5 bytes (`sentence.len() > 5`). -/
def emitSentence (raw : Str) : List Str :=
  let s := trim raw
  if s ≠ [] ∧ strLen s > 5 then [s] else []

/-- The inner character scan of `split_into_sentences` over one line:
push each character on the accumulator; after `.`/`!`/`?`, peek at the
next character — whitespace or uppercase (or end of line) closes the
sentence.  Returns the emitted sentences and the leftover
accumulator. -/
def sentLoop (cur : Str) : Str → List Str × Str
  | [] => ([], cur)
  | c :: rest =>
    let cur' := cur ++ [c]
    if c = '.' ∨ c = '!' ∨ c = '?' then
      match rest with
      | [] => (emitSentence cur', [])
      | d :: _ =>
        if isRustWs d ∨ isUpperRust d then
          let r := sentLoop [] rest
          (emitSentence cur' ++ r.1, r.2)
        else sentLoop cur' rest
    else sentLoop cur' rest

/-- The per-line loop of `split_into_sentences`: trimmed empty lines
are skipped; after a line with leftover content a space is appended to
the accumulator. -/
def sentencesGo : List Str → Str → List Str × Str
  | [], cur => ([], cur)
  | l :: ls, cur =>
    let lt := trim l
    if lt = [] then sentencesGo ls cur
    else
      let r := sentLoop cur lt
      let cur' := if trim r.2 ≠ [] then r.2 ++ [' '] else r.2
      let rest := sentencesGo ls cur'
      (r.1 ++ rest.1, rest.2)

/-- `DocumentProcessor::split_into_sentences`. -/
def split_into_sentences (text : Str) : List Str :=
  let r := sentencesGo (linesOf text) []
  r.1 ++ emitSentence r.2

/-- The backward accumulation of `create_overlap_chunk`:
`consumedRev` lists the already-consumed sentences most recent first;
whole sentences are prepended while `chars + len + 1` stays within the
overlap budget. -/
def ovGo (cfg : Proc) : List Str → Str → Nat → Str
  | [], acc, _ => acc
  | s :: rest, acc, chars =>
    if chars + strLen s + 1 ≤ cfg.overlap then
      let acc' := if acc ≠ [] then s ++ ' ' :: acc else s
      ovGo cfg rest acc' (chars + strLen s + 1)
    else acc

/-- `DocumentProcessor::create_overlap_chunk`. -/
def create_overlap_chunk (cfg : Proc) (chunks : List Str)
    (consumedRev : List Str) : Str :=
  if chunks = [] ∨ cfg.overlap = 0 then []
  else ovGo cfg consumedRev [] 0

/-- Finalization of the chunk at the end of `chunk_text`'s loop. -/
def finalPush (cur : Str) : List Str :=
  let f := trim cur
  if f ≠ [] ∧ strLen f > 10 then [f] else []

/-- The sentence-packing loop of `chunk_text`.  `consumedRev` is the
reversed list of sentences already consumed (the source walks indices
`(0..i).rev()`). -/
def chunkGo (cfg : Proc) : List Str → List Str → Str → List Str → List Str
  | [], _, cur, chunks => chunks ++ finalPush cur
  | s :: rest, consumedRev, cur, chunks =>
    if cur ≠ [] ∧ strLen cur + strLen s + 1 > cfg.chunk_size then
      let t := trim cur
      let chunks' := if t ≠ [] ∧ strLen t > 10 then chunks ++ [t] else chunks
      let ov := create_overlap_chunk cfg chunks' consumedRev
      let cur' := (if ov ≠ [] then ov ++ [' '] else ov) ++ s
      chunkGo cfg rest (s :: consumedRev) cur' chunks'
    else
      let cur' := (if cur ≠ [] then cur ++ [' '] else cur) ++ s
      chunkGo cfg rest (s :: consumedRev) cur' chunks

/-- `DocumentProcessor::chunk_text` (the source's `anyhow::Result` is
always `Ok`; the result list is modelled directly). -/
def chunk_text (cfg : Proc) (text : Str) : List Str :=
  if text = [] then []
  else chunkGo cfg (split_into_sentences text) [] [] []

/-! ## Meta record (`duckdb_storage.rs`) -/

/-- The two-singleton-key meta table, as an optional pair. -/
structure Meta where
  version : Option String
  model : Option String
deriving DecidableEq, Repr

/-- `DB_VERSION` from `duckdb_storage.rs`. -/
def dbVersion : String := "1.0.0"

/-- Storage errors relevant to the meta record. -/
inductive StorageErr where
  | versionMismatch (expected found : String)
  | modelMismatch (expected found : String)
deriving DecidableEq, Repr

/-- A fresh database: neither meta key present. -/
def emptyMeta : Meta := ⟨none, none⟩

/-- The embedding-model half of `verify_or_set_model`: verify when the
key exists, insert it otherwise. -/
def checkModelMeta (m : Meta) (name : String) : Meta × Except StorageErr Unit :=
  match m.model with
  | some existing =>
    if existing ≠ name then (m, .error (.modelMismatch name existing))
    else (m, .ok ())
  | none => ({ m with model := some name }, .ok ())

/-- `DuckDBStorage::verify_or_set_model`: check (or insert) the version
key, then the embedding-model key; a mismatch of either is an error
that writes nothing. -/
def verify_or_set_model (m : Meta) (name : String) : Meta × Except StorageErr Unit :=
  match m.version with
  | some v =>
    if v ≠ dbVersion then (m, .error (.versionMismatch dbVersion v))
    else checkModelMeta m name
  | none => checkModelMeta { m with version := some dbVersion } name

/-! ## Fragment store and Phase 2 (`main.rs`, `duckdb_storage.rs`) -/

/-- A row of the `fragments` table.  Document ids, contents and
fragment ids are abstracted to `Nat` tokens; an embedding is a vector
of integers (its numeric type plays no role in the claims). -/
structure Frag where
  id : Nat
  doc : Nat
  order : Nat
  content : Nat
  emb : Option (List Int)
deriving DecidableEq, Repr

/-- The fragment-storing loop of `process_document`:
`for (order, fragment) in fragments.iter().enumerate()`, each stored
with a fresh id (UUIDs modelled by a counter). -/
def mkFrags (d : Nat) : Nat → Nat → List Nat → List Frag
  | _, _, [] => []
  | nextId, order, c :: cs => ⟨nextId, d, order, c, none⟩ :: mkFrags d (nextId + 1) (order + 1) cs

/-- Phase 1's fragment persistence for one document, appended to the
store. -/
def storeFragments (d nextId : Nat) (contents : List Nat) (st : List Frag) : List Frag :=
  st ++ mkFrags d nextId 0 contents

/-- `update_fragment_embedding`: attach a vector to the row with the
given id. -/
def updateFrag (fid : Nat) (v : List Int) (st : List Frag) : List Frag :=
  st.map (fun f => if f.id = fid then { f with emb := some v } else f)

/-- The `ORDER BY document_id, fragment_order` of
`get_fragments_without_embeddings`. -/
def fragLe (f g : Frag) : Prop :=
  f.doc < g.doc ∨ (f.doc = g.doc ∧ f.order ≤ g.order)

instance : DecidableRel fragLe := fun f g => by
  unfold fragLe; exact inferInstance

/-- `get_fragments_without_embeddings(limit)`: the first `limit`
`(id, content)` pairs of embedding-less rows, ordered by
`(document_id, fragment_order)`. -/
def fetchPairs (limit : Nat) (st : List Frag) : List (Nat × Nat) :=
  ((((st.filter (fun f => f.emb.isNone)).insertionSort fragLe).take limit).map
    (fun f => (f.id, f.content)))

/-- `count_fragments_without_embeddings()`. -/
def countUnembedded (st : List Frag) : Nat :=
  (st.filter (fun f => f.emb.isNone)).length

/-- Modelled from the spec: the embedding backend contract of
section 6 — `generate_embeddings_batch(texts) -> [vector]`, one vector
per input in order, empty vector meaning "could not embed".  The
implementing module (`embedding_manager.rs`) is declared by `main.rs`
but absent from the sources, so the backend is a parameter. -/
def EmbedBackend : Type := List Nat → List (List Int)

/-- `process_embedding_batch` from `main.rs`: fetch a batch, embed all
its texts in one call, fail on a count mismatch, store each non-empty
vector, and report the number of fetched fragments (0 = nothing
left). -/
def process_embedding_batch (embed : EmbedBackend) (batchSize : Nat)
    (st : List Frag) : Except String (List Frag × Nat) :=
  let fragments := fetchPairs batchSize st
  if fragments.isEmpty then .ok (st, 0)
  else
    let texts := fragments.map Prod.snd
    let ids := fragments.map Prod.fst
    let embeddings := embed texts
    if embeddings.length ≠ ids.length then .error "embedding count mismatch"
    else
      let st' := (ids.zip embeddings).foldl
        (fun acc p => if p.2 = [] then acc else updateFrag p.1 p.2 acc) st
      .ok (st', fragments.length)

/-- The Phase-2 loop of `main`: repeat `process_embedding_batch` until
a batch reports 0, recording each non-zero batch size (one embedding
call per recorded size).  Explicit fuel stands in for the unbounded
`loop`; the theorems show the break is reached within `count + 1`
iterations. -/
def runPhase2 (embed : EmbedBackend) (b : Nat) : Nat → List Frag →
    Except String (List Nat × List Frag)
  | 0, _ => .error "out of fuel"
  | fuel + 1, st =>
    match process_embedding_batch embed b st with
    | .error e => .error e
    | .ok (st', n) =>
      if n = 0 then .ok ([], st')
      else
        match runPhase2 embed b fuel st' with
        | .error e => .error e
        | .ok (sizes, st'') => .ok (n :: sizes, st'')

/-- The batch sizes Phase 2 performs on `n` unembedded fragments with
batch size `b`: `min b n` repeatedly until exhaustion. -/
def batchSizes (b : Nat) : Nat → List Nat
  | 0 => []
  | n + 1 =>
    if h : b = 0 then []
    else min b (n + 1) :: batchSizes b (n + 1 - min b (n + 1))
termination_by n => n
decreasing_by
  simp_wf
  have hb : 0 < b := Nat.pos_of_ne_zero h
  have : 0 < min b (n + 1) := lt_min hb (Nat.succ_pos n)
  omega

/-- The projection of a fragment row that Phase 2 must not disturb. -/
def eraseEmb (f : Frag) : Nat × Nat × Nat × Nat := (f.id, f.doc, f.order, f.content)

/-! ## Concrete instances used by witnesses and counterexamples -/

/-- Trivial external parsers (payload-independent), used to witness
that the size gate ignores the parsers entirely. -/
def trivParsers : Parsers :=
  ⟨fun _ => .ok [], fun _ => [], fun _ => .ok [], fun _ => .ok [],
   fun _ => .ok [], fun _ => .ok []⟩

/-- Five unembedded fragments of one document, orders 0..4. -/
def st5 : List Frag := mkFrags 0 0 0 [10, 11, 12, 13, 14]

/-- A backend that embeds every text as the vector `[1]`. -/
def embedOne : EmbedBackend := fun ts => ts.map (fun _ => [1])

/-! ## Proof-support definitions -/

/-- The relation "no two adjacent whitespace characters". -/
def NonAdjWs (a b : Char) : Prop := isRustWs a = false ∨ isRustWs b = false

/-- Sentences joined by single spaces, the shape in which `chunk_text`
assembles fragments. -/
def joinSp (l : List Str) : Str := List.intercalate [' '] l

/-- The longest byte length among a list of sentences. -/
def maxSentLen (l : List Str) : Nat := l.foldr (fun s m => max (strLen s) m) 0

/-- A string in the shape `split_into_sentences` emits: nonempty and
already trimmed. -/
def Clean (s : Str) : Prop := trim s = s ∧ s ≠ []

instance (s : Str) : Decidable (Clean s) := by
  unfold Clean
  exact inferInstance

/-! ## Byte-length lemmas -/

theorem charBytes_pos (c : Char) : 0 < charBytes c := by
  unfold charBytes; split <;> [norm_num; split <;> [norm_num; split <;> norm_num]]

theorem strLen_nil : strLen [] = 0 := rfl

theorem strLen_append (a b : Str) : strLen (a ++ b) = strLen a + strLen b := by
  simp [strLen]

theorem strLen_cons (c : Char) (s : Str) :
    strLen (c :: s) = charBytes c + strLen s := by
  simp [strLen]

theorem strLen_pos_of_ne_nil {s : Str} (h : s ≠ []) : 0 < strLen s := by
  cases s with
  | nil => exact absurd rfl h
  | cons c t =>
    have := charBytes_pos c
    simp only [strLen_cons]; omega

theorem length_le_strLen (s : Str) : s.length ≤ strLen s := by
  induction s with
  | nil => simp [strLen]
  | cons c t ih =>
    have := charBytes_pos c
    simp only [strLen_cons, List.length_cons]; omega

theorem strLen_le_of_sublist {a b : Str} (h : List.Sublist a b) :
    strLen a ≤ strLen b := by
  induction h with
  | slnil => exact Nat.le_refl _
  | cons c _ ih =>
    simp only [strLen_cons]; omega
  | cons₂ c _ ih =>
    simp only [strLen_cons]; omega

/-! ## `trim` lemmas -/

theorem dropWhile_head?_false {p : Char → Bool} {l : Str} :
    ∀ c ∈ (l.dropWhile p).head?, p c = false := by
  induction l with
  | nil => simp
  | cons a t ih =>
    intro c hc
    by_cases h : p a
    · rw [List.dropWhile_cons_of_pos h] at hc; exact ih c hc
    · rw [List.dropWhile_cons_of_neg h] at hc
      simp only [List.head?_cons, Option.mem_some_iff] at hc
      subst hc
      exact Bool.eq_false_iff.mpr h

theorem dropWhile_eq_self_of_head {p : Char → Bool} {l : Str}
    (h : ∀ c ∈ l.head?, p c = false) : l.dropWhile p = l := by
  cases l with
  | nil => rfl
  | cons a t =>
    have := h a (by simp)
    rw [List.dropWhile_cons_of_neg (by simp [this])]

theorem trim_sublist (s : Str) : List.Sublist (trim s) s := by
  have h1 : List.Sublist (s.dropWhile isRustWs) s := (List.dropWhile_suffix _).sublist
  have h2 : List.Sublist ((s.dropWhile isRustWs).reverse.dropWhile isRustWs)
      (s.dropWhile isRustWs).reverse := (List.dropWhile_suffix _).sublist
  have h3 := h2.reverse
  rw [List.reverse_reverse] at h3
  exact h3.trans h1

theorem mem_trim {c : Char} {s : Str} (h : c ∈ trim s) : c ∈ s :=
  (trim_sublist s).subset h

theorem strLen_trim_le (s : Str) : strLen (trim s) ≤ strLen s :=
  strLen_le_of_sublist (trim_sublist s)

theorem trim_head?_false (s : Str) :
    ∀ c ∈ (trim s).head?, isRustWs c = false := by
  intro c hc
  unfold trim at hc
  set u := s.dropWhile isRustWs with hu
  obtain ⟨t, ht⟩ := List.dropWhile_suffix (l := u.reverse) isRustWs
  have hueq : u = (u.reverse.dropWhile isRustWs).reverse ++ t.reverse := by
    have := congrArg List.reverse ht
    simpa [List.reverse_append] using this.symm
  cases hv : (u.reverse.dropWhile isRustWs).reverse with
  | nil => rw [hv] at hc; simp at hc
  | cons a r =>
    rw [hv] at hc
    simp only [List.head?_cons, Option.mem_some_iff] at hc
    rw [hv] at hueq
    have hhead : u.head? = some a := by rw [hueq]; rfl
    rw [← hc]
    refine dropWhile_head?_false (p := isRustWs) (l := s) a ?_
    rw [← hu]
    simp [hhead]

theorem trim_getLast?_false (s : Str) :
    ∀ c ∈ (trim s).getLast?, isRustWs c = false := by
  intro c hc
  unfold trim at hc
  rw [List.getLast?_reverse] at hc
  exact dropWhile_head?_false c hc

theorem trim_eq_self {s : Str}
    (h1 : ∀ c ∈ s.head?, isRustWs c = false)
    (h2 : ∀ c ∈ s.getLast?, isRustWs c = false) : trim s = s := by
  unfold trim
  rw [dropWhile_eq_self_of_head h1]
  rw [dropWhile_eq_self_of_head (by simpa [List.head?_reverse] using h2)]
  exact List.reverse_reverse s

theorem trim_idem (s : Str) : trim (trim s) = trim s :=
  trim_eq_self (trim_head?_false s) (trim_getLast?_false s)

/-! ## Whitespace-collapse lemmas -/

theorem mem_collapseWsAux {c : Char} :
    ∀ {t : Str} {b : Bool}, c ∈ collapseWsAux b t →
      c = ' ' ∨ (c ∈ t ∧ isRustWs c = false) := by
  intro t
  induction t with
  | nil => intro b h; simp [collapseWsAux] at h
  | cons a r ih =>
    intro b h
    by_cases hw : isRustWs a
    · cases b with
      | true =>
        simp only [collapseWsAux, hw, if_true] at h
        rcases ih h with h' | ⟨hm, hws⟩
        · exact Or.inl h'
        · exact Or.inr ⟨List.mem_cons_of_mem a hm, hws⟩
      | false =>
        simp only [collapseWsAux, hw, if_true, Bool.false_eq_true, if_false,
          List.mem_cons] at h
        rcases h with h | h
        · exact Or.inl h
        · rcases ih h with h' | ⟨hm, hws⟩
          · exact Or.inl h'
          · exact Or.inr ⟨List.mem_cons_of_mem a hm, hws⟩
    · simp only [collapseWsAux, hw, Bool.false_eq_true, if_false, List.mem_cons] at h
      rcases h with h | h
      · subst h
        exact Or.inr ⟨List.mem_cons_self c r, by simpa using hw⟩
      · rcases ih h with h' | ⟨hm, hws⟩
        · exact Or.inl h'
        · exact Or.inr ⟨List.mem_cons_of_mem a hm, hws⟩

theorem collapseAux_head_chain : ∀ (t : Str),
    (∀ c ∈ (collapseWsAux true t).head?, isRustWs c = false) ∧
    (∀ b, List.Chain' NonAdjWs (collapseWsAux b t)) := by
  intro t
  induction t with
  | nil =>
    refine ⟨by simp [collapseWsAux], ?_⟩
    intro b; simp [collapseWsAux]
  | cons a r ih =>
    obtain ⟨ih1, ih2⟩ := ih
    by_cases hw : isRustWs a
    · refine ⟨?_, ?_⟩
      · intro c hc
        simp only [collapseWsAux, hw, if_true] at hc
        exact ih1 c hc
      · intro b
        cases b with
        | true =>
          simp only [collapseWsAux, hw, if_true]
          exact ih2 true
        | false =>
          simp only [collapseWsAux, hw, if_true, Bool.false_eq_true, if_false]
          rw [List.chain'_cons']
          exact ⟨fun h hh => Or.inr (ih1 h hh), ih2 true⟩
    · refine ⟨?_, ?_⟩
      · intro c hc
        simp only [collapseWsAux, hw, Bool.false_eq_true, if_false,
          List.head?_cons, Option.mem_some_iff] at hc
        rw [← hc]
        simpa using hw
      · intro b
        simp only [collapseWsAux, hw, Bool.false_eq_true, if_false]
        rw [List.chain'_cons']
        exact ⟨fun h _ => Or.inl (by simpa using hw), ih2 false⟩

theorem chain'_collapseWs (t : Str) : List.Chain' NonAdjWs (collapseWs t) :=
  (collapseAux_head_chain t).2 false

theorem collapseAux_eq_self : ∀ (s : Str),
    (∀ c ∈ s, isRustWs c = true → c = ' ') → List.Chain' NonAdjWs s →
    collapseWsAux false s = s ∧
      ((∀ c ∈ s.head?, isRustWs c = false) → collapseWsAux true s = s) := by
  intro s
  induction s with
  | nil => exact fun _ _ => ⟨rfl, fun _ => rfl⟩
  | cons c r ih =>
    intro hmem hch
    have hmemr : ∀ d ∈ r, isRustWs d = true → d = ' ' :=
      fun d hd => hmem d (List.mem_cons_of_mem c hd)
    obtain ⟨ih1, ih2⟩ := ih hmemr hch.tail
    by_cases hw : isRustWs c
    · have hc : c = ' ' := hmem c (List.mem_cons_self c r) hw
      have hhr : ∀ d ∈ r.head?, isRustWs d = false := by
        intro d hd
        rw [List.chain'_cons'] at hch
        rcases hch.1 d hd with h | h
        · rw [hw] at h; cases h
        · exact h
      refine ⟨?_, ?_⟩
      · simp only [collapseWsAux, hw, if_true, Bool.false_eq_true, if_false]
        rw [ih2 hhr, hc]
      · intro hhd
        have := hhd c (by simp)
        rw [hw] at this; cases this
    · have hstep : collapseWsAux false (c :: r) = c :: r := by
        simp only [collapseWsAux, hw, Bool.false_eq_true, if_false]
        rw [ih1]
      refine ⟨hstep, fun _ => ?_⟩
      simp only [collapseWsAux, hw, Bool.false_eq_true, if_false]
      rw [ih1]

theorem collapseWs_eq_self {s : Str}
    (hmem : ∀ c ∈ s, isRustWs c = true → c = ' ')
    (hch : List.Chain' NonAdjWs s) : collapseWs s = s :=
  (collapseAux_eq_self s hmem hch).1

/-! ## `splitNl` and `intercalate` lemmas -/

theorem splitNl_eq_single {s : Str} (h : ∀ c ∈ s, c ≠ '\n') :
    splitNl s = [s] := by
  induction s with
  | nil => rfl
  | cons c r ih =>
    have hc : c ≠ '\n' := h c (List.mem_cons_self c r)
    have : splitNl r = [r] := ih fun d hd => h d (List.mem_cons_of_mem c hd)
    simp [splitNl, hc, this]

theorem intercalate_nil_pieces (sep : Str) : List.intercalate sep [] = [] := by
  simp [List.intercalate]

theorem intercalate_single (sep : Str) (x : Str) :
    List.intercalate sep [x] = x := by
  simp [List.intercalate]

/-! ## Cleanup characterization -/

theorem chain'_of_suffix {R : Char → Char → Prop} {l w : Str}
    (h : List.Chain' R l) (hs : w <:+ l) : List.Chain' R w := by
  obtain ⟨t, rfl⟩ := hs
  exact (List.chain'_append.mp h).2.1

theorem nonAdjWs_symm {a b : Char} (h : NonAdjWs a b) : NonAdjWs b a :=
  h.symm

theorem chain'_trim {s : Str} (h : List.Chain' NonAdjWs s) :
    List.Chain' NonAdjWs (trim s) := by
  have hu : List.Chain' NonAdjWs (s.dropWhile isRustWs) :=
    chain'_of_suffix h (List.dropWhile_suffix _)
  have hur : List.Chain' NonAdjWs (s.dropWhile isRustWs).reverse := by
    rw [List.chain'_reverse]
    exact hu.imp fun a b hab => nonAdjWs_symm hab
  have hv : List.Chain' NonAdjWs
      ((s.dropWhile isRustWs).reverse.dropWhile isRustWs) :=
    chain'_of_suffix hur (List.dropWhile_suffix _)
  unfold trim
  rw [List.chain'_reverse]
  exact hv.imp fun a b hab => nonAdjWs_symm hab

theorem no_nl_in_collapse (t : Str) : ∀ c ∈ collapseWs t, c ≠ '\n' := by
  intro c hc hnl
  rcases mem_collapseWsAux hc with h | ⟨_, hws⟩
  · rw [hnl] at h; cases h
  · rw [hnl] at hws
    have : isRustWs '\n' = true := by decide
    rw [this] at hws; cases hws

theorem cleanup_eq_cases (t : Str) :
    cleanup_text t = [] ∨
      cleanup_text t =
        trim ((collapseWs t).filter (fun c => !(isCtl c) || c = '\n' || c = '\t')) := by
  have hnl : ∀ c ∈ (collapseWs t).filter
      (fun c => !(isCtl c) || c = '\n' || c = '\t'), c ≠ '\n' :=
    fun c hc => no_nl_in_collapse t c (List.mem_of_mem_filter hc)
  unfold cleanup_text
  rw [splitNl_eq_single hnl]
  by_cases he :
      trim ((collapseWs t).filter (fun c => !(isCtl c) || c = '\n' || c = '\t')) = []
  · left
    simp only [List.map_cons, List.map_nil, he]
    rw [List.filter_cons_of_neg (by simp), List.filter_nil]
    exact intercalate_nil_pieces _
  · right
    simp only [List.map_cons, List.map_nil]
    rw [List.filter_cons_of_pos (by simpa using he), List.filter_nil]
    exact intercalate_single _ _

theorem cleanup_eq_trim_collapse {t : Str}
    (h : ∀ c ∈ t, isCtl c = true → isRustWs c = true) :
    cleanup_text t = trim (collapseWs t) := by
  have hfil : (collapseWs t).filter (fun c => !(isCtl c) || c = '\n' || c = '\t') =
      collapseWs t := by
    rw [List.filter_eq_self]
    intro c hc
    rcases mem_collapseWsAux hc with hsp | ⟨hm, hws⟩
    · rw [hsp]; decide
    · have : isCtl c = false := by
        cases hct : isCtl c with
        | false => rfl
        | true => rw [h c hm hct] at hws; cases hws
      simp [this]
  rcases cleanup_eq_cases t with hcase | hcase
  · rw [hcase]
    -- in the empty case the trimmed collapse is itself empty
    unfold cleanup_text at hcase
    rw [hfil, splitNl_eq_single (no_nl_in_collapse t)] at hcase
    by_cases he : trim (collapseWs t) = []
    · exact he.symm
    · exfalso
      simp only [List.map_cons, List.map_nil] at hcase
      rw [List.filter_cons_of_pos (by simpa using he), List.filter_nil] at hcase
      rw [intercalate_single] at hcase
      exact he hcase
  · rw [hfil] at hcase
    exact hcase

theorem cleanup_idem_of_ctl {t : Str}
    (h : ∀ c ∈ t, isCtl c = true → isRustWs c = true) :
    cleanup_text (cleanup_text t) = cleanup_text t := by
  rw [cleanup_eq_trim_collapse h]
  have hmemd : ∀ c ∈ trim (collapseWs t), isRustWs c = true → c = ' ' := by
    intro c hc hw
    rcases mem_collapseWsAux (mem_trim hc) with hsp | ⟨_, hws⟩
    · exact hsp
    · rw [hw] at hws; cases hws
  have hctld : ∀ c ∈ trim (collapseWs t), isCtl c = true → isRustWs c = true := by
    intro c hc hct
    rcases mem_collapseWsAux (mem_trim hc) with hsp | ⟨hm, _⟩
    · rw [hsp] at hct; cases hct
    · exact h c hm hct
  have hchd : List.Chain' NonAdjWs (trim (collapseWs t)) :=
    chain'_trim (chain'_collapseWs t)
  rw [cleanup_eq_trim_collapse hctld]
  rw [collapseWs_eq_self hmemd hchd]
  exact trim_idem _

/-! ## Clean strings and sentence emission -/

theorem clean_head {s : Str} (h : Clean s) :
    ∀ c ∈ s.head?, isRustWs c = false := by
  intro c hc
  exact trim_head?_false s c (by rw [h.1]; exact hc)

theorem clean_getLast {s : Str} (h : Clean s) :
    ∀ c ∈ s.getLast?, isRustWs c = false := by
  intro c hc
  exact trim_getLast?_false s c (by rw [h.1]; exact hc)

theorem clean_trim {raw : Str} (h : trim raw ≠ []) : Clean (trim raw) :=
  ⟨trim_idem raw, h⟩

theorem clean_append {a b : Str} (ha : Clean a) (hb : Clean b) :
    Clean (a ++ ' ' :: b) := by
  refine ⟨trim_eq_self ?_ ?_, by simp [ha.2]⟩
  · rw [List.head?_append_of_ne_nil a ha.2]
    exact clean_head ha
  · have : (' ' :: b : Str) ≠ [] := by simp
    rw [List.getLast?_append_of_ne_nil a this]
    have hb' : (' ' :: b : Str) = [' '] ++ b := rfl
    rw [hb', List.getLast?_append_of_ne_nil [' '] hb.2]
    exact clean_getLast hb

theorem strLen_clean_pos {s : Str} (h : Clean s) : 0 < strLen s :=
  strLen_pos_of_ne_nil h.2

theorem emitSentence_clean {raw : Str} :
    ∀ x ∈ emitSentence raw, Clean x := by
  intro x hx
  simp only [emitSentence] at hx
  split at hx
  · rename_i hcond
    simp only [List.mem_singleton] at hx
    subst hx
    exact clean_trim hcond.1
  · simp at hx

theorem sentLoop_clean :
    ∀ (l cur : Str), ∀ x ∈ (sentLoop cur l).1, Clean x := by
  intro l
  induction l with
  | nil => intro cur x hx; simp [sentLoop] at hx
  | cons c rest ih =>
    intro cur x hx
    simp only [sentLoop] at hx
    split at hx
    · -- sentence-ending punctuation
      cases rest with
      | nil =>
        simp only at hx
        exact emitSentence_clean x hx
      | cons d rest' =>
        simp only at hx
        split at hx
        · simp only [List.mem_append] at hx
          rcases hx with hx | hx
          · exact emitSentence_clean x hx
          · exact ih [] x hx
        · exact ih (cur ++ [c]) x hx
    · exact ih (cur ++ [c]) x hx

theorem sentencesGo_clean :
    ∀ (ls : List Str) (cur : Str), ∀ x ∈ (sentencesGo ls cur).1, Clean x := by
  intro ls
  induction ls with
  | nil => intro cur x hx; simp [sentencesGo] at hx
  | cons l rest ih =>
    intro cur x hx
    simp only [sentencesGo] at hx
    split at hx
    · exact ih cur x hx
    · simp only [List.mem_append] at hx
      rcases hx with hx | hx
      · exact sentLoop_clean (trim l) cur x hx
      · exact ih _ x hx

theorem split_sentences_clean (t : Str) :
    ∀ s ∈ split_into_sentences t, Clean s := by
  intro s hs
  simp only [split_into_sentences, List.mem_append] at hs
  rcases hs with hs | hs
  · exact sentencesGo_clean (linesOf t) [] s hs
  · exact emitSentence_clean s hs

theorem le_maxSentLen {l : List Str} {s : Str} (h : s ∈ l) :
    strLen s ≤ maxSentLen l := by
  induction l with
  | nil => simp at h
  | cons a r ih =>
    rcases List.mem_cons.mp h with h' | h'
    · subst h'
      exact le_max_left _ _
    · exact le_trans (ih h') (le_max_right _ _)

/-! ## `joinSp` algebra -/

theorem joinSp_nil : joinSp [] = [] := by
  simp [joinSp, List.intercalate]

theorem joinSp_single (x : Str) : joinSp [x] = x :=
  intercalate_single [' '] x

theorem joinSp_cons {x : Str} {l : List Str} (h : l ≠ []) :
    joinSp (x :: l) = x ++ ' ' :: joinSp l := by
  cases l with
  | nil => exact absurd rfl h
  | cons y r =>
    simp [joinSp, List.intercalate]

theorem joinSp_append_ne {xs ys : List Str} (hxs : xs ≠ []) (hys : ys ≠ []) :
    joinSp (xs ++ ys) = joinSp xs ++ ' ' :: joinSp ys := by
  induction xs with
  | nil => exact absurd rfl hxs
  | cons a r ih =>
    cases hr : r with
    | nil =>
      subst hr
      rw [List.singleton_append, joinSp_cons hys, joinSp_single]
    | cons b r' =>
      rw [← hr]
      have hrne : r ≠ [] := by rw [hr]; simp
      have h1 : r ++ ys ≠ [] := by
        intro h; rcases List.append_eq_nil.mp h with ⟨h', _⟩; exact hrne h'
      rw [List.cons_append, joinSp_cons h1, joinSp_cons hrne, ih hrne]
      simp

theorem joinSp_append_collapse {xs ys : List Str} (hys : ys ≠ []) :
    joinSp (xs ++ ys) = joinSp (xs ++ [joinSp ys]) := by
  by_cases hxs : xs = []
  · subst hxs
    simp [joinSp_single]
  · rw [joinSp_append_ne hxs hys, joinSp_append_ne hxs (by simp), joinSp_single]

theorem joinSp_suffix_of_rev {p r : List Str} (h : p <+: r) :
    joinSp p.reverse <:+ joinSp r.reverse := by
  obtain ⟨q, rfl⟩ := h
  rw [List.reverse_append]
  by_cases hp : p = []
  · subst hp
    simp [joinSp_nil]
  · by_cases hq : q = []
    · subst hq
      simp
    · have hpr : p.reverse ≠ [] := by simpa using hp
      have hqr : q.reverse ≠ [] := by simpa using hq
      rw [joinSp_append_ne hqr hpr]
      exact ⟨joinSp q.reverse ++ [' '], by simp⟩

/-! ## Overlap-construction lemmas -/

theorem ovGo_spec (cfg : Proc) :
    ∀ (r : List Str) (acc : Str) (chars : Nat), (∀ x ∈ r, x ≠ []) →
    ∃ p, p <+: r ∧
      ovGo cfg r acc chars =
        joinSp (p.reverse ++ (if acc = [] then [] else [acc])) := by
  intro r
  induction r with
  | nil =>
    intro acc chars _
    refine ⟨[], List.nil_prefix, ?_⟩
    by_cases ha : acc = [] <;> simp [ovGo, ha, joinSp_nil, joinSp_single]
  | cons s rest ih =>
    intro acc chars hne
    by_cases hb : chars + strLen s + 1 ≤ cfg.overlap
    · have hsne : s ≠ [] := hne s (List.mem_cons_self s rest)
      have hrne : ∀ x ∈ rest, x ≠ [] := fun x hx => hne x (List.mem_cons_of_mem s hx)
      set acc' := if acc ≠ [] then s ++ ' ' :: acc else s with hacc'
      have hstep : ovGo cfg (s :: rest) acc chars =
          ovGo cfg rest acc' (chars + strLen s + 1) := by
        simp only [ovGo, if_pos hb, hacc']
      obtain ⟨p', hp', heq⟩ := ih acc' (chars + strLen s + 1) hrne
      refine ⟨s :: p', List.cons_prefix_cons.mpr ⟨rfl, hp'⟩, ?_⟩
      rw [hstep, heq]
      have hacc'ne : acc' ≠ [] := by
        by_cases ha : acc = []
        · simp [hacc', ha, hsne]
        · simp [hacc', ha]
      have hacc'eq : acc' = joinSp ([s] ++ (if acc = [] then [] else [acc])) := by
        by_cases ha : acc = []
        · simp [hacc', ha, joinSp_single]
        · simp only [hacc', ha, if_neg, ite_false, ite_true]
          rw [if_pos (by simpa using ha)]
          rw [show ([s] ++ [acc] : List Str) = s :: [acc] by rfl]
          rw [joinSp_cons (by simp), joinSp_single]
      rw [if_neg hacc'ne, List.reverse_cons, List.append_assoc]
      rw [@joinSp_append_collapse p'.reverse ([s] ++ (if acc = [] then [] else [acc])) (by simp)]
      rw [← hacc'eq]
    · refine ⟨[], List.nil_prefix, ?_⟩
      have hstep : ovGo cfg (s :: rest) acc chars = acc := by
        rw [ovGo, if_neg hb]
      rw [hstep]
      by_cases ha : acc = [] <;> simp [ha, joinSp_nil, joinSp_single]

theorem ovGo_budget (cfg : Proc) :
    ∀ (r : List Str) (acc : Str) (chars : Nat), (∀ x ∈ r, x ≠ []) →
    ((acc = [] ∧ chars = 0) ∨
      (acc ≠ [] ∧ strLen acc + 1 = chars ∧ chars ≤ cfg.overlap)) →
    (ovGo cfg r acc chars = [] ∨ strLen (ovGo cfg r acc chars) + 1 ≤ cfg.overlap) := by
  intro r
  induction r with
  | nil =>
    intro acc chars _ hinv
    rcases hinv with ⟨h1, _⟩ | ⟨_, h1, h2⟩
    · left; simp [ovGo, h1]
    · right
      simp only [ovGo]
      omega
  | cons s rest ih =>
    intro acc chars hne hinv
    have hsne : s ≠ [] := hne s (List.mem_cons_self s rest)
    by_cases hb : chars + strLen s + 1 ≤ cfg.overlap
    · have hstep : ovGo cfg (s :: rest) acc chars =
          ovGo cfg rest (if acc ≠ [] then s ++ ' ' :: acc else s)
            (chars + strLen s + 1) := by
        simp only [ovGo, if_pos hb]
      rw [hstep]
      apply ih _ _ (fun x hx => hne x (List.mem_cons_of_mem s hx))
      right
      have hsp : charBytes ' ' = 1 := by decide
      rcases hinv with ⟨h1, h0⟩ | ⟨h1, h2, _⟩
      · refine ⟨?_, ?_, hb⟩
        · rw [if_neg (by simp [h1])]
          exact hsne
        · rw [if_neg (by simp [h1]), h0]
          omega
      · refine ⟨?_, ?_, hb⟩
        · rw [if_pos h1]; simp
        · rw [if_pos h1]
          simp only [strLen_append, strLen_cons, hsp]
          omega
    · have hstep : ovGo cfg (s :: rest) acc chars = acc := by
        rw [ovGo, if_neg hb]
      rw [hstep]
      rcases hinv with ⟨h1, _⟩ | ⟨_, h1, h2⟩
      · exact Or.inl h1
      · right; omega

theorem ovGo_clean (cfg : Proc) :
    ∀ (r : List Str) (acc : Str) (chars : Nat),
    (∀ x ∈ r, Clean x) → (acc = [] ∨ Clean acc) →
    (ovGo cfg r acc chars = [] ∨ Clean (ovGo cfg r acc chars)) := by
  intro r
  induction r with
  | nil =>
    intro acc chars _ hacc
    simpa [ovGo] using hacc
  | cons s rest ih =>
    intro acc chars hcl hacc
    by_cases hb : chars + strLen s + 1 ≤ cfg.overlap
    · have hstep : ovGo cfg (s :: rest) acc chars =
          ovGo cfg rest (if acc ≠ [] then s ++ ' ' :: acc else s)
            (chars + strLen s + 1) := by
        simp only [ovGo, if_pos hb]
      rw [hstep]
      apply ih _ _ (fun x hx => hcl x (List.mem_cons_of_mem s hx))
      right
      by_cases ha : acc = []
      · simpa [ha] using hcl s (List.mem_cons_self s rest)
      · rcases hacc with h | h
        · exact absurd h ha
        · rw [if_pos ha]
          exact clean_append (hcl s (List.mem_cons_self s rest)) h
    · have hstep : ovGo cfg (s :: rest) acc chars = acc := by
        rw [ovGo, if_neg hb]
      rw [hstep]
      exact hacc

theorem create_overlap_spec (cfg : Proc) (chunks consumedRev : List Str)
    (hne : ∀ x ∈ consumedRev, x ≠ []) :
    ∃ p, p <+: consumedRev ∧
      create_overlap_chunk cfg chunks consumedRev = joinSp p.reverse := by
  unfold create_overlap_chunk
  split
  · exact ⟨[], List.nil_prefix, by simp [joinSp_nil]⟩
  · obtain ⟨p, hp, heq⟩ := ovGo_spec cfg consumedRev [] 0 hne
    exact ⟨p, hp, by simpa using heq⟩

theorem create_overlap_budget (cfg : Proc) (chunks consumedRev : List Str)
    (hne : ∀ x ∈ consumedRev, x ≠ []) :
    create_overlap_chunk cfg chunks consumedRev = [] ∨
      strLen (create_overlap_chunk cfg chunks consumedRev) + 1 ≤ cfg.overlap := by
  unfold create_overlap_chunk
  split
  · left; rfl
  · exact ovGo_budget cfg consumedRev [] 0 hne (Or.inl ⟨rfl, rfl⟩)

theorem create_overlap_clean (cfg : Proc) (chunks consumedRev : List Str)
    (hcl : ∀ x ∈ consumedRev, Clean x) :
    create_overlap_chunk cfg chunks consumedRev = [] ∨
      Clean (create_overlap_chunk cfg chunks consumedRev) := by
  unfold create_overlap_chunk
  split
  · left; rfl
  · exact ovGo_clean cfg consumedRev [] 0 hcl (Or.inl rfl)

/-! ## Containment helpers -/

theorem within_of_suffix_append (s x : Str) : s <:+: x ++ s :=
  ⟨x, [], by simp⟩

theorem within_append_right {a b : Str} (w : Str) (h : a <:+: b) :
    a <:+: b ++ w := by
  obtain ⟨u, v, rfl⟩ := h
  exact ⟨u, v ++ w, by simp⟩

theorem within_strLen_le {a b : Str} (h : a <:+: b) : strLen a ≤ strLen b := by
  obtain ⟨u, v, rfl⟩ := h
  rw [strLen_append, strLen_append]
  omega

theorem within_ne_nil {a b : Str} (ha : a ≠ []) (h : a <:+: b) : b ≠ [] := by
  obtain ⟨u, v, rfl⟩ := h
  intro hb
  rcases List.append_eq_nil.mp hb with ⟨h1, h2⟩
  rcases List.append_eq_nil.mp h1 with ⟨_, h3⟩
  exact ha h3

/-! ## Chunk-loop lemmas -/

theorem chunkGo_len (cfg : Proc) :
    ∀ (rest consumedRev : List Str) (cur : Str) (chunks : List Str),
    (∀ f ∈ chunks, 10 < strLen f) →
    ∀ f ∈ chunkGo cfg rest consumedRev cur chunks, 10 < strLen f := by
  intro rest
  induction rest with
  | nil =>
    intro consumedRev cur chunks hch f hf
    simp only [chunkGo, List.mem_append] at hf
    rcases hf with hf | hf
    · exact hch f hf
    · simp only [finalPush] at hf
      split at hf
      · rename_i hcond
        simp only [List.mem_singleton] at hf
        subst hf
        exact hcond.2
      · simp at hf
  | cons s rest ih =>
    intro consumedRev cur chunks hch f hf
    simp only [chunkGo] at hf
    split at hf
    · refine ih _ _ _ ?_ f hf
      intro g hg
      split at hg
      · rename_i hcond
        simp only [List.mem_append, List.mem_singleton] at hg
        rcases hg with hg | hg
        · exact hch g hg
        · subst hg
          exact hcond.2
      · exact hch g hg
    · exact ih _ _ _ hch f hf

theorem chunkGo_bound (cfg : Proc) (L : Nat) :
    ∀ (rest consumedRev : List Str) (cur : Str) (chunks : List Str),
    (∀ x ∈ rest, strLen x ≤ L ∧ x ≠ []) →
    (∀ x ∈ consumedRev, x ≠ []) →
    strLen cur ≤ cfg.chunk_size + L + cfg.overlap →
    (∀ f ∈ chunks, strLen f ≤ cfg.chunk_size + L + cfg.overlap) →
    ∀ f ∈ chunkGo cfg rest consumedRev cur chunks,
      strLen f ≤ cfg.chunk_size + L + cfg.overlap := by
  intro rest
  induction rest with
  | nil =>
    intro consumedRev cur chunks _ _ hcur hch f hf
    simp only [chunkGo, List.mem_append] at hf
    rcases hf with hf | hf
    · exact hch f hf
    · simp only [finalPush] at hf
      split at hf
      · simp only [List.mem_singleton] at hf
        subst hf
        exact le_trans (strLen_trim_le cur) hcur
      · simp at hf
  | cons s rest ih =>
    intro consumedRev cur chunks hrest hcr hcur hch f hf
    have hs := hrest s (List.mem_cons_self s rest)
    have hrest' : ∀ x ∈ rest, strLen x ≤ L ∧ x ≠ [] :=
      fun x hx => hrest x (List.mem_cons_of_mem s hx)
    have hcr' : ∀ x ∈ s :: consumedRev, x ≠ [] := by
      intro x hx
      rcases List.mem_cons.mp hx with hx | hx
      · subst hx; exact hs.2
      · exact hcr x hx
    simp only [chunkGo] at hf
    split at hf
    · rename_i hbr
      set chunks' := if trim cur ≠ [] ∧ strLen (trim cur) > 10
        then chunks ++ [trim cur] else chunks with hchunks'
      have hch' : ∀ g ∈ chunks', strLen g ≤ cfg.chunk_size + L + cfg.overlap := by
        intro g hg
        rw [hchunks'] at hg
        split at hg
        · simp only [List.mem_append, List.mem_singleton] at hg
          rcases hg with hg | hg
          · exact hch g hg
          · subst hg
            exact le_trans (strLen_trim_le cur) hcur
        · exact hch g hg
      refine ih _ _ _ hrest' hcr' ?_ hch' f hf
      -- the reseeded chunk: overlap text (plus space) plus the sentence
      have hsp : charBytes ' ' = 1 := by decide
      by_cases hove : create_overlap_chunk cfg chunks' consumedRev = []
      · rw [hove, if_neg (by simp)]
        simp only [List.nil_append]
        have := hs.1
        omega
      · rcases create_overlap_budget cfg chunks' consumedRev hcr with h | h
        · exact absurd h hove
        · rw [if_pos hove, List.append_assoc]
          rw [strLen_append, List.singleton_append, strLen_cons, hsp]
          have := hs.1
          omega
    · rename_i hbr
      refine ih _ _ _ hrest' hcr' ?_ hch f hf
      by_cases hc : cur = []
      · rw [if_neg (by simp [hc]), hc]
        simp only [List.nil_append]
        have := hs.1
        omega
      · have hle : strLen cur + strLen s + 1 ≤ cfg.chunk_size := by
          rcases not_and_or.mp hbr with h | h
          · exact absurd (not_not.mp h) hc
          · omega
        have hsp : charBytes ' ' = 1 := by decide
        rw [if_pos hc, List.append_assoc, List.singleton_append]
        rw [strLen_append, strLen_cons, hsp]
        omega

theorem chunkGo_contains (cfg : Proc) {s₀ : Str}
    (hcs : 10 ≤ cfg.chunk_size) (hlen : cfg.chunk_size < strLen s₀) :
    ∀ (rest consumedRev : List Str) (cur : Str) (chunks : List Str),
    (∀ x ∈ rest, Clean x) →
    (∀ x ∈ consumedRev, Clean x) →
    (cur = [] ∨ Clean cur) →
    ((∃ f ∈ chunks, s₀ <:+: f) ∨ s₀ <:+: cur ∨ s₀ ∈ rest) →
    ∃ f ∈ chunkGo cfg rest consumedRev cur chunks, s₀ <:+: f := by
  have hs₀ne : s₀ ≠ [] := by
    intro h
    rw [h] at hlen
    simp only [strLen, List.map_nil, List.sum_nil] at hlen
    omega
  intro rest
  induction rest with
  | nil =>
    intro consumedRev cur chunks _ _ hcur hstate
    simp only [chunkGo]
    rcases hstate with ⟨f, hf, hin⟩ | hin | hin
    · exact ⟨f, List.mem_append_left _ hf, hin⟩
    · have hcne : cur ≠ [] := within_ne_nil hs₀ne hin
      rcases hcur with h | h
      · exact absurd h hcne
      · refine ⟨cur, List.mem_append_right _ ?_, hin⟩
        have hgt : 10 < strLen cur := by
          have := within_strLen_le hin
          omega
        simp only [finalPush, h.1]
        rw [if_pos ⟨hcne, hgt⟩]
        exact List.mem_singleton.mpr rfl
    · simp at hin
  | cons s rest' ih =>
    intro consumedRev cur chunks hrest hcr hcur hstate
    have hscl : Clean s := hrest s (List.mem_cons_self s rest')
    have hrest' : ∀ x ∈ rest', Clean x :=
      fun x hx => hrest x (List.mem_cons_of_mem s hx)
    have hcr' : ∀ x ∈ s :: consumedRev, Clean x := by
      intro x hx
      rcases List.mem_cons.mp hx with hx | hx
      · subst hx; exact hscl
      · exact hcr x hx
    simp only [chunkGo]
    split
    · rename_i hbr
      set chunks' := if trim cur ≠ [] ∧ strLen (trim cur) > 10
        then chunks ++ [trim cur] else chunks with hchunks'
      set ov := create_overlap_chunk cfg chunks' consumedRev with hov
      refine ih _ _ _ hrest' hcr' ?_ ?_
      · -- the reseeded chunk is clean (it ends with the clean sentence s)
        right
        by_cases hove : ov = []
        · rw [hove, if_neg (by simp)]
          simpa using hscl
        · rcases create_overlap_clean cfg chunks' consumedRev hcr with h | h
          · exact absurd h hove
          · rw [if_pos hove, List.append_assoc, List.singleton_append]
            exact clean_append h hscl
      · rcases hstate with ⟨f, hf, hin⟩ | hin | hin
        · refine Or.inl ⟨f, ?_, hin⟩
          rw [hchunks']
          split
          · exact List.mem_append_left _ hf
          · exact hf
        · have hcne : cur ≠ [] := within_ne_nil hs₀ne hin
          rcases hcur with h | h
          · exact absurd h hcne
          · refine Or.inl ⟨cur, ?_, hin⟩
            have hgt : 10 < strLen cur := by
              have := within_strLen_le hin
              omega
            rw [hchunks', h.1, if_pos ⟨hcne, hgt⟩]
            exact List.mem_append_right _ (List.mem_singleton.mpr rfl)
        · rcases List.mem_cons.mp hin with hin | hin
          · subst hin
            exact Or.inr (Or.inl (within_of_suffix_append _ _))
          · exact Or.inr (Or.inr hin)
    · rename_i hbr
      refine ih _ _ _ hrest' hcr' ?_ ?_
      · right
        by_cases hc : cur = []
        · rw [if_neg (by simp [hc]), hc]
          simpa using hscl
        · have hccl : Clean cur := by
            rcases hcur with h | h
            · exact absurd h hc
            · exact h
          rw [if_pos hc, List.append_assoc, List.singleton_append]
          exact clean_append hccl hscl
      · rcases hstate with ⟨f, hf, hin⟩ | hin | hin
        · exact Or.inl ⟨f, hf, hin⟩
        · have hcne : cur ≠ [] := within_ne_nil hs₀ne hin
          refine Or.inr (Or.inl ?_)
          rw [if_pos hcne, List.append_assoc]
          exact within_append_right _ hin
        · rcases List.mem_cons.mp hin with hin | hin
          · subst hin
            exact Or.inr (Or.inl (within_of_suffix_append _ _))
          · exact Or.inr (Or.inr hin)

/-! ## Fragment-store lemmas -/

theorem eraseEmb_updateFrag (fid : Nat) (v : List Int) (st : List Frag) :
    (updateFrag fid v st).map eraseEmb = st.map eraseEmb := by
  induction st with
  | nil => rfl
  | cons f r ih =>
    simp only [updateFrag, List.map_cons] at ih ⊢
    rw [ih]
    by_cases h : f.id = fid <;> simp [h, eraseEmb]

theorem eraseEmb_foldlUpd (pairs : List (Nat × List Int)) :
    ∀ st : List Frag,
    ((pairs.foldl (fun acc p => if p.2 = [] then acc else updateFrag p.1 p.2 acc)
      st).map eraseEmb) = st.map eraseEmb := by
  induction pairs with
  | nil => intro st; rfl
  | cons p ps ih =>
    intro st
    simp only [List.foldl_cons]
    rw [ih]
    by_cases h : p.2 = []
    · rw [if_pos h]
    · rw [if_neg h, eraseEmb_updateFrag]

theorem eraseEmb_process {embed : EmbedBackend} {b : Nat} {st st' : List Frag}
    {n : Nat} (h : process_embedding_batch embed b st = .ok (st', n)) :
    st'.map eraseEmb = st.map eraseEmb := by
  simp only [process_embedding_batch] at h
  split at h
  · rw [Except.ok.injEq, Prod.mk.injEq] at h
    rw [← h.1]
  · split at h
    · cases h
    · rw [Except.ok.injEq, Prod.mk.injEq] at h
      rw [← h.1]
      exact eraseEmb_foldlUpd _ st

theorem eraseEmb_runPhase2 {embed : EmbedBackend} {b : Nat} :
    ∀ {fuel : Nat} {st : List Frag} {sizes : List Nat} {st' : List Frag},
    runPhase2 embed b fuel st = .ok (sizes, st') →
    st'.map eraseEmb = st.map eraseEmb := by
  intro fuel
  induction fuel with
  | zero => intro st sizes st' h; cases h
  | succ fuel ih =>
    intro st sizes st' h
    simp only [runPhase2] at h
    cases hp : process_embedding_batch embed b st with
    | error e => rw [hp] at h; cases h
    | ok r =>
      rw [hp] at h
      obtain ⟨st₁, n⟩ := r
      simp only at h
      split at h
      · rw [Except.ok.injEq, Prod.mk.injEq] at h
        rw [← h.2]
        exact eraseEmb_process hp
      · cases hr : runPhase2 embed b fuel st₁ with
        | error e => rw [hr] at h; cases h
        | ok r' =>
          rw [hr] at h
          obtain ⟨sizes', st''⟩ := r'
          simp only [Except.ok.injEq, Prod.mk.injEq] at h
          rw [← h.2]
          exact (ih hr).trans (eraseEmb_process hp)

theorem ids_eq_of_eraseEmb {st st' : List Frag}
    (h : st'.map eraseEmb = st.map eraseEmb) :
    st'.map (fun f => f.id) = st.map (fun f => f.id) := by
  have := congrArg (List.map Prod.fst) h
  simpa [List.map_map, eraseEmb, Function.comp] using this

theorem updateFrag_filter_none (fid : Nat) (v : List Int) :
    ∀ st : List Frag,
    (updateFrag fid v st).filter (fun f => f.emb.isNone) =
      st.filter (fun f => f.emb.isNone && !(f.id = fid)) := by
  intro st
  induction st with
  | nil => rfl
  | cons f r ih =>
    simp only [updateFrag, List.map_cons] at ih ⊢
    by_cases h : f.id = fid
    · rw [if_pos h]
      rw [List.filter_cons_of_neg (by simp), List.filter_cons_of_neg (by simp [h])]
      exact ih
    · rw [if_neg h]
      by_cases hemb : f.emb.isNone
      · rw [List.filter_cons_of_pos (by simp [hemb]),
          List.filter_cons_of_pos (by simp [hemb, h]), ih]
      · rw [List.filter_cons_of_neg (by simp [hemb]),
          List.filter_cons_of_neg (by simp [hemb]), ih]

theorem count_one_of_nodup {i : Nat} :
    ∀ {l : List Frag}, ((l.map (fun f => f.id)).Nodup) →
    i ∈ (l.map (fun f => f.id)) →
    (l.filter (fun f => f.id = i)).length = 1 := by
  intro l
  induction l with
  | nil => intro _ h; simp at h
  | cons f r ih =>
    intro hnd hmem
    simp only [List.map_cons, List.nodup_cons] at hnd
    rcases List.mem_cons.mp hmem with h | h
    · have hfi : f.id = i := by simpa using h.symm
      rw [List.filter_cons_of_pos (by simp [hfi])]
      have hnil : r.filter (fun f => f.id = i) = [] := by
        rw [List.filter_eq_nil_iff]
        intro g hg hgi
        apply hnd.1
        have hgid : g.id = i := by simpa using hgi
        rw [hfi, ← hgid]
        exact List.mem_map_of_mem _ hg
      rw [hnil]
      rfl
    · by_cases hf : f.id = i
      · exact absurd (by rw [hf]; exact h) hnd.1
      · rw [List.filter_cons_of_neg (by simp [hf])]
        exact ih hnd.2 h

theorem length_filter_not_add {α : Type} (p : α → Bool) (l : List α) :
    (l.filter (fun x => !(p x))).length + (l.filter p).length = l.length := by
  induction l with
  | nil => rfl
  | cons a t ih =>
    by_cases h : p a
    · rw [List.filter_cons_of_neg (by simp [h]), List.filter_cons_of_pos (by simp [h])]
      simp only [List.length_cons]
      omega
    · rw [List.filter_cons_of_pos (by simp [h]), List.filter_cons_of_neg (by simp [h])]
      simp only [List.length_cons]
      omega

theorem count_updateFrag {i : Nat} (v : List Int) {st : List Frag}
    (hnd : (st.map (fun f => f.id)).Nodup)
    (hi : i ∈ (st.filter (fun f => f.emb.isNone)).map (fun f => f.id)) :
    countUnembedded (updateFrag i v st) = countUnembedded st - 1 := by
  unfold countUnembedded
  rw [updateFrag_filter_none]
  have hsplit : st.filter (fun f => f.emb.isNone && !(f.id = i)) =
      (st.filter (fun f => f.emb.isNone)).filter (fun f => !(f.id = i)) := by
    rw [List.filter_filter]
    apply List.filter_congr
    intro f _
    exact Bool.and_comm _ _
  rw [hsplit]
  have hndl : ((st.filter (fun f => f.emb.isNone)).map (fun f => f.id)).Nodup := by
    refine List.Nodup.sublist ?_ hnd
    exact (List.filter_sublist st).map _
  have hone := count_one_of_nodup hndl hi
  have hcompl :=
    length_filter_not_add (fun f => decide (f.id = i))
      (st.filter (fun f => f.emb.isNone))
  have hone' :
      ((st.filter (fun f => f.emb.isNone)).filter
        (fun f => decide (f.id = i))).length = 1 := hone
  omega

theorem count_foldlUpd :
    ∀ (pairs : List (Nat × List Int)) (st : List Frag),
    (st.map (fun f => f.id)).Nodup →
    ((pairs.map Prod.fst).Nodup) →
    (∀ p ∈ pairs, p.2 ≠ []) →
    (∀ p ∈ pairs, p.1 ∈ (st.filter (fun f => f.emb.isNone)).map (fun f => f.id)) →
    countUnembedded
      (pairs.foldl (fun acc p => if p.2 = [] then acc else updateFrag p.1 p.2 acc) st) =
      countUnembedded st - pairs.length := by
  intro pairs
  induction pairs with
  | nil => intro st _ _ _ _; simp
  | cons p ps ih =>
    intro st hnd hpnd hne hmem
    obtain ⟨i, v⟩ := p
    have hv : v ≠ [] := hne (i, v) (List.mem_cons_self _ _)
    have hi := hmem (i, v) (List.mem_cons_self _ _)
    simp only [List.foldl_cons, if_neg hv]
    have hcount := count_updateFrag (i := i) v hnd hi
    have hids : (updateFrag i v st).map (fun f => f.id) = st.map (fun f => f.id) :=
      ids_eq_of_eraseEmb (eraseEmb_updateFrag i v st)
    have hnd' : ((updateFrag i v st).map (fun f => f.id)).Nodup := by

      rw [hids]; exact hnd
    simp only [List.map_cons, List.nodup_cons] at hpnd
    have hmem' : ∀ q ∈ ps, q.1 ∈
        ((updateFrag i v st).filter (fun f => f.emb.isNone)).map (fun f => f.id) := by
      intro q hq
      have hq1 := hmem q (List.mem_cons_of_mem _ hq)
      have hqi : q.1 ≠ i := by
        intro he
        apply hpnd.1
        rw [← he]
        exact List.mem_map_of_mem Prod.fst hq
      rw [updateFrag_filter_none]
      obtain ⟨f, hf, hfid⟩ := List.mem_map.mp hq1
      refine List.mem_map.mpr ⟨f, ?_, hfid⟩
      rw [List.mem_filter] at hf ⊢
      refine ⟨hf.1, ?_⟩
      have : f.id ≠ i := by rw [hfid]; exact hqi
      simp [this]
      exact (by simpa using hf.2)
    rw [ih _ hnd' hpnd.2 (fun q hq => hne q (List.mem_cons_of_mem _ hq)) hmem',
      hcount]
    simp only [List.length_cons]
    omega

/-! ## Fetch lemmas -/

theorem fetchPairs_length (b : Nat) (st : List Frag) :
    (fetchPairs b st).length = min b (countUnembedded st) := by
  unfold fetchPairs countUnembedded
  rw [List.length_map, List.length_take]
  congr 1
  exact (List.perm_insertionSort _ _).length_eq

theorem fetchPairs_nil_of_count {b : Nat} {st : List Frag}
    (h : countUnembedded st = 0) : fetchPairs b st = [] := by
  have := fetchPairs_length b st
  rw [h, Nat.min_zero] at this
  exact List.length_eq_zero.mp this

theorem fetch_ids_sub (b : Nat) (st : List Frag) :
    ∀ x ∈ (fetchPairs b st).map Prod.fst,
      x ∈ (st.filter (fun f => f.emb.isNone)).map (fun f => f.id) := by
  intro x hx
  unfold fetchPairs at hx
  rw [List.map_map] at hx
  obtain ⟨f, hf, hfx⟩ := List.mem_map.mp hx
  have hf' : f ∈ (st.filter (fun g => g.emb.isNone)).insertionSort fragLe :=
    List.mem_of_mem_take hf
  have hfm : f ∈ st.filter (fun g => g.emb.isNone) :=
    (List.perm_insertionSort fragLe _).subset hf'
  exact List.mem_map.mpr ⟨f, hfm, hfx⟩

theorem fetch_ids_nodup {b : Nat} {st : List Frag}
    (hnd : (st.map (fun f => f.id)).Nodup) :
    ((fetchPairs b st).map Prod.fst).Nodup := by
  unfold fetchPairs
  rw [List.map_map]
  have h1 : ((st.filter (fun f => f.emb.isNone)).map (fun f => f.id)).Nodup :=
    List.Nodup.sublist ((List.filter_sublist st).map _) hnd
  have h2 : (((st.filter (fun f => f.emb.isNone)).insertionSort fragLe).map
      (fun f => f.id)).Nodup := by
    rw [List.Perm.nodup_iff ((List.perm_insertionSort fragLe _).map _)]
    exact h1
  have h3 := List.Nodup.sublist
    ((List.take_sublist b ((st.filter (fun f => f.emb.isNone)).insertionSort
      fragLe)).map (fun f : Frag => f.id)) h2
  exact h3

theorem batchSizes_zero (b : Nat) : batchSizes b 0 = [] := by
  simp [batchSizes]

theorem batchSizes_pos {b n : Nat} (hb : b ≠ 0) (hn : 0 < n) :
    batchSizes b n = min b n :: batchSizes b (n - min b n) := by
  cases n with
  | zero => omega
  | succ m => rw [batchSizes, dif_neg hb]

theorem process_step {embed : EmbedBackend} (b : Nat) {st : List Frag}
    (hnd : (st.map (fun f => f.id)).Nodup)
    (hlen : ∀ ts, (embed ts).length = ts.length)
    (hne : ∀ ts, ∀ v ∈ embed ts, v ≠ []) :
    ∃ st',
      process_embedding_batch embed b st = .ok (st', min b (countUnembedded st)) ∧
      countUnembedded st' = countUnembedded st - min b (countUnembedded st) ∧
      st'.map eraseEmb = st.map eraseEmb := by
  by_cases hempty : (fetchPairs b st).isEmpty = true
  · have h0 : (fetchPairs b st).length = 0 := by
      rw [List.isEmpty_iff] at hempty
      rw [hempty]
      rfl
    have hmin : min b (countUnembedded st) = 0 := by
      rw [← fetchPairs_length]
      exact h0
    refine ⟨st, ?_, by omega, rfl⟩
    simp only [process_embedding_batch]
    rw [if_pos hempty, hmin]
  · have hlen' : (embed ((fetchPairs b st).map Prod.snd)).length =
        ((fetchPairs b st).map Prod.fst).length := by
      rw [hlen, List.length_map, List.length_map]
    have hzfst : (((fetchPairs b st).map Prod.fst).zip
        (embed ((fetchPairs b st).map Prod.snd))).map Prod.fst =
        (fetchPairs b st).map Prod.fst :=
      List.map_fst_zip _ _ (le_of_eq hlen'.symm)
    have hznd : ((((fetchPairs b st).map Prod.fst).zip
        (embed ((fetchPairs b st).map Prod.snd))).map Prod.fst).Nodup := by
      rw [hzfst]
      exact fetch_ids_nodup hnd
    have hzne : ∀ p ∈ (((fetchPairs b st).map Prod.fst).zip
        (embed ((fetchPairs b st).map Prod.snd))), p.2 ≠ [] :=
      fun p hp => hne _ _ (List.of_mem_zip hp).2
    have hzmem : ∀ p ∈ (((fetchPairs b st).map Prod.fst).zip
        (embed ((fetchPairs b st).map Prod.snd))),
        p.1 ∈ (st.filter (fun f => f.emb.isNone)).map (fun f => f.id) := by
      intro p hp
      apply fetch_ids_sub b st
      rw [← hzfst]
      exact List.mem_map_of_mem Prod.fst hp
    have hzlen : (((fetchPairs b st).map Prod.fst).zip
        (embed ((fetchPairs b st).map Prod.snd))).length =
        (fetchPairs b st).length := by
      rw [List.length_zip, hlen', List.length_map, Nat.min_self]
    have hfold := count_foldlUpd _ st hnd hznd hzne hzmem
    refine ⟨(((fetchPairs b st).map Prod.fst).zip
        (embed ((fetchPairs b st).map Prod.snd))).foldl
        (fun acc p => if p.2 = [] then acc else updateFrag p.1 p.2 acc) st,
      ?_, ?_, eraseEmb_foldlUpd _ st⟩
    · simp only [process_embedding_batch]
      rw [if_neg hempty, if_neg (by simp [hlen'])]
      rw [fetchPairs_length]
    · rw [hfold, hzlen, fetchPairs_length]

theorem runPhase2_spec {embed : EmbedBackend} {b : Nat}
    (hlen : ∀ ts, (embed ts).length = ts.length)
    (hne : ∀ ts, ∀ v ∈ embed ts, v ≠ [])
    (hb : 0 < b) :
    ∀ (fuel : Nat) (st : List Frag),
    (st.map (fun f => f.id)).Nodup →
    countUnembedded st + 1 ≤ fuel →
    ∃ st',
      runPhase2 embed b fuel st = .ok (batchSizes b (countUnembedded st), st') ∧
      countUnembedded st' = 0 ∧ fetchPairs b st' = [] ∧
      st'.map eraseEmb = st.map eraseEmb := by
  intro fuel
  induction fuel with
  | zero => intro st _ h; omega
  | succ fuel ih =>
    intro st hnd hf
    obtain ⟨st₁, hp, hc, he⟩ := process_step b hnd hlen hne
    by_cases h0 : countUnembedded st = 0
    · have hmin : min b (countUnembedded st) = 0 := by rw [h0]; simp
      rw [hmin] at hp hc
      refine ⟨st₁, ?_, ?_, ?_, he⟩
      · simp only [runPhase2, hp, if_true]
        rw [h0, batchSizes_zero]
      · omega
      · apply fetchPairs_nil_of_count
        omega
    · have hpos : 0 < countUnembedded st := Nat.pos_of_ne_zero h0
      have hminpos : 0 < min b (countUnembedded st) := lt_min hb hpos
      have hnd₁ : (st₁.map (fun f => f.id)).Nodup := by
        rw [ids_eq_of_eraseEmb he]
        exact hnd
      have hf₁ : countUnembedded st₁ + 1 ≤ fuel := by omega
      obtain ⟨st'', hr, hc'', hfetch, he''⟩ := ih st₁ hnd₁ hf₁
      refine ⟨st'', ?_, hc'', hfetch, he''.trans he⟩
      have hr' : runPhase2 embed b fuel st₁ =
          .ok (batchSizes b (countUnembedded st - min b (countUnembedded st)),
            st'') := by
        rw [hr, hc]
      simp only [runPhase2, hp]
      rw [if_neg (by omega : ¬(min b (countUnembedded st) = 0))]
      simp only [hr']
      rw [batchSizes_pos (by omega) hpos]

/-! ## Phase-1 fragment persistence lemmas -/

theorem mkFrags_orders (d : Nat) :
    ∀ (contents : List Nat) (nextId k : Nat),
    (mkFrags d nextId k contents).map (fun f => f.order) =
      List.range' k contents.length := by
  intro contents
  induction contents with
  | nil => intro nextId k; rfl
  | cons c cs ih =>
    intro nextId k
    simp only [mkFrags, List.map_cons, List.length_cons]
    rw [ih, List.range'_succ]

theorem mkFrags_doc (d : Nat) :
    ∀ (contents : List Nat) (nextId k : Nat),
    ∀ f ∈ mkFrags d nextId k contents, f.doc = d := by
  intro contents
  induction contents with
  | nil => intro nextId k f hf; simp [mkFrags] at hf
  | cons c cs ih =>
    intro nextId k f hf
    simp only [mkFrags, List.mem_cons] at hf
    rcases hf with hf | hf
    · rw [hf]
    · exact ih _ _ f hf

theorem storeFragments_orders (nextId : Nat) (contents : List Nat)
    {d : Nat} {st : List Frag} (hfresh : ∀ f ∈ st, f.doc ≠ d) :
    ((storeFragments d nextId contents st).filter
      (fun f => f.doc = d)).map (fun f => f.order) =
      List.range contents.length := by
  unfold storeFragments
  rw [List.filter_append]
  have h1 : st.filter (fun f => f.doc = d) = [] := by
    rw [List.filter_eq_nil_iff]
    intro f hf
    simpa using hfresh f hf
  have h2 : (mkFrags d nextId 0 contents).filter (fun f => f.doc = d) =
      mkFrags d nextId 0 contents := by
    rw [List.filter_eq_self]
    intro f hf
    simpa using mkFrags_doc d contents nextId 0 f hf
  rw [h1, h2, List.nil_append, mkFrags_orders, List.range_eq_range']

theorem batchSizes_mem_pos {b : Nat} (hb : 0 < b) :
    ∀ (n : Nat), ∀ x ∈ batchSizes b n, 0 < x := by
  intro n
  induction n using Nat.strong_induction_on with
  | _ n ih =>
    intro x hx
    cases n with
    | zero => rw [batchSizes_zero] at hx; simp at hx
    | succ m =>
      rw [batchSizes_pos (by omega) (Nat.succ_pos m)] at hx
      rcases List.mem_cons.mp hx with h | h
      · rw [h]
        exact lt_min hb (Nat.succ_pos m)
      · have hlt : m + 1 - min b (m + 1) < m + 1 := by
          have := lt_min hb (Nat.succ_pos m)
          omega
        exact ih _ hlt x h

/-! ## Claims -/

/-- C1: for every supported format and every payload exceeding
`max_file_size`, `extract_text_from_document` (and the per-format
extractor `extract_text_from_pdf`) returns the size-limit error before
any parsing is attempted — the result is the size error for every
choice of external parsers, so the payload is never parsed. -/
theorem claim_c1_size_gate :
    ∀ (P : Parsers) (cfg : Proc) (ext : Str) (data : List Nat),
    cfg.max_file_size < data.length →
    extract_text_from_document P cfg ext data =
      .error (.fileTooLarge data.length cfg.max_file_size) ∧
    extract_text_from_pdf P cfg data =
      .error (.fileTooLarge data.length cfg.max_file_size) := by
  intro P cfg ext data h
  constructor
  · unfold extract_text_from_document
    rw [if_pos (by omega)]
  · unfold extract_text_from_pdf
    rw [if_pos (by omega)]

theorem claim_c1_size_gate_witness :
    (Proc.mk 512 50 1 1000).max_file_size < ([0, 0] : List Nat).length ∧
    extract_text_from_document trivParsers (Proc.mk 512 50 1 1000)
      "pdf".toList [0, 0] = .error (.fileTooLarge 2 1) ∧
    extract_text_from_pdf trivParsers (Proc.mk 512 50 1 1000) [0, 0] =
      .error (.fileTooLarge 2 1) :=
  ⟨by decide,
    (claim_c1_size_gate trivParsers (Proc.mk 512 50 1 1000) "pdf".toList
      [0, 0] (by decide)).1,
    (claim_c1_size_gate trivParsers (Proc.mk 512 50 1 1000) "pdf".toList
      [0, 0] (by decide)).2⟩

/-- C2 (counterexample): the claim "every returned fragment is longer
than 10 characters" fails: on the 7-character input `ÀÀÀÀÀÀÀ`
(14 UTF-8 bytes, so it passes the source's byte-length test
`trimmed_chunk.len() > 10`) `chunk_text` returns that very 7-character
fragment. -/
theorem claim_c2_counterexample :
    "ÀÀÀÀÀÀÀ".toList ≠ [] ∧
    chunk_text Proc.new "ÀÀÀÀÀÀÀ".toList = ["ÀÀÀÀÀÀÀ".toList] ∧
    ("ÀÀÀÀÀÀÀ".toList).length = 7 ∧ strLen "ÀÀÀÀÀÀÀ".toList = 14 := by
  decide

/-- C2 (amended): `chunk_text` of the empty string is empty, and every
returned fragment has UTF-8 byte length (Rust `String::len`) strictly
greater than 10; for ASCII text this is "more than 10 characters", but
a fragment with multi-byte characters may have 10 or fewer
characters. -/
theorem claim_c2_amended (cfg : Proc) :
    chunk_text cfg [] = [] ∧
    ∀ (text : Str), ∀ f ∈ chunk_text cfg text, 10 < strLen f := by
  refine ⟨rfl, ?_⟩
  intro text f hf
  unfold chunk_text at hf
  split at hf
  · simp at hf
  · exact chunkGo_len cfg _ [] [] [] (by simp) f hf

theorem claim_c2_amended_witness :
    "Abcdefghijkl. Mnopqrstu.".toList ∈
      chunk_text Proc.new "Abcdefghijkl. Mnopqrstu.".toList ∧
    10 < strLen "Abcdefghijkl. Mnopqrstu.".toList :=
  ⟨by decide,
    (claim_c2_amended Proc.new).2 "Abcdefghijkl. Mnopqrstu.".toList
      "Abcdefghijkl. Mnopqrstu.".toList (by decide)⟩

/-- C5 (counterexample): the normalizer is not idempotent: on
`"a \x00 b"` (a NUL control character between spaces) the first pass
leaves the double space `"a  b"`, and a second pass collapses it to
`"a b"`. -/
theorem claim_c5_counterexample :
    cleanup_text (cleanup_text ['a', ' ', Char.ofNat 0, ' ', 'b']) ≠
      cleanup_text ['a', ' ', Char.ofNat 0, ' ', 'b'] ∧
    cleanup_text ['a', ' ', Char.ofNat 0, ' ', 'b'] = ['a', ' ', ' ', 'b'] ∧
    cleanup_text ['a', ' ', ' ', 'b'] = ['a', ' ', 'b'] := by
  decide

/-- C5 (amended): the normalizer (a total, deterministic function) is
idempotent on every input containing no control characters other than
whitespace ones (tab, LF, VT, FF, CR, NEL); removing a non-whitespace
control character that separates two whitespace runs is the only way a
first pass can leave a collapsible whitespace run behind. -/
theorem claim_c5_amended :
    ∀ (t : Str), (∀ c ∈ t, isCtl c = true → isRustWs c = true) →
    cleanup_text (cleanup_text t) = cleanup_text t := by
  intro t h
  exact cleanup_idem_of_ctl h

theorem claim_c5_amended_witness :
    (∀ c ∈ ("a   b\n\nc  d.".toList : Str), isCtl c = true → isRustWs c = true) ∧
    cleanup_text (cleanup_text "a   b\n\nc  d.".toList) =
      cleanup_text "a   b\n\nc  d.".toList :=
  ⟨by decide, claim_c5_amended "a   b\n\nc  d.".toList (by decide)⟩

/-- C9: the normalizer's output never contains a newline: the initial
whitespace collapse replaces every newline with a space, so the
paragraph re-splitting sees a single line and the final join inserts no
blank line — the output is one line. -/
theorem claim_c9_no_newline :
    ∀ (t : Str), ∀ c ∈ cleanup_text t, c ≠ '\n' := by
  intro t c hc
  rcases cleanup_eq_cases t with hcase | hcase
  · rw [hcase] at hc
    simp at hc
  · rw [hcase] at hc
    have h1 := mem_trim hc
    have h2 := List.mem_of_mem_filter h1
    exact no_nl_in_collapse t c h2

theorem claim_c9_no_newline_witness :
    'a' ∈ cleanup_text "a\nb".toList ∧ 'a' ≠ '\n' :=
  ⟨by decide, claim_c9_no_newline "a\nb".toList 'a' (by decide)⟩

/-- C10: a non-empty input can produce zero fragments: a short text
(`"hi"`, no sentence survives the 5-byte filter) and a longer text all
of whose sentences are at most 5 bytes long both chunk to the empty
list, so an extracted document can be stored with zero fragments. -/
theorem claim_c10_empty_chunks :
    ("hi".toList ≠ [] ∧ chunk_text Proc.ingest "hi".toList = []) ∧
    ("Hi. Ho. He. Hu. Ha. Hy.".toList ≠ [] ∧
      10 < ("Hi. Ho. He. Hu. Ha. Hy.".toList).length ∧
      chunk_text Proc.ingest "Hi. Ho. He. Hu. Ha. Hy.".toList = []) := by
  decide

/-- C3 (counterexample): the overlap prefix seeding a fragment need not
be a suffix of the previous *emitted* fragment: with target size 12 and
overlap 9 on this text, the chunk holding `Qrstuvw.` is discarded by
the length-10 filter, yet the overlap seeding the second emitted
fragment is `Qrstuvw.`, which does not occur in the first emitted
fragment at all. -/
theorem claim_c3_counterexample :
    chunk_text ⟨12, 9, 100, 100000⟩ "Abcdefghij. Qrstuvw. Xyzab. Vwxyz.".toList =
      ["Abcdefghij.".toList, "Qrstuvw. Xyzab.".toList, "Xyzab. Vwxyz.".toList] ∧
    create_overlap_chunk ⟨12, 9, 100, 100000⟩ ["Abcdefghij.".toList]
      ["Qrstuvw.".toList, "Abcdefghij.".toList] = "Qrstuvw.".toList ∧
    "Qrstuvw.".toList <+: "Qrstuvw. Xyzab.".toList ∧
    ¬ ("Qrstuvw.".toList <:+: "Abcdefghij.".toList) := by
  decide

/-- C3 (amended): the overlap prefix is a whole-sentence construction:
it equals the single-space join of the most recent consumed sentences
(a prefix of the reversed consumption list), hence a suffix of the
single-space join of *all* sentences consumed so far, and its byte
length is bounded by the configured overlap; it is a suffix of the
earlier emitted fragment only when the chunk finalized at that break
survived the length-10 filter. -/
theorem claim_c3_amended :
    ∀ (cfg : Proc) (chunks consumedRev : List Str),
    (∀ x ∈ consumedRev, Clean x) →
    strLen (create_overlap_chunk cfg chunks consumedRev) ≤ cfg.overlap ∧
    ∃ p, p <+: consumedRev ∧
      create_overlap_chunk cfg chunks consumedRev = joinSp p.reverse ∧
      create_overlap_chunk cfg chunks consumedRev <:+
        joinSp consumedRev.reverse := by
  intro cfg chunks consumedRev hcl
  have hne : ∀ x ∈ consumedRev, x ≠ [] := fun x hx => (hcl x hx).2
  obtain ⟨p, hp, heq⟩ := create_overlap_spec cfg chunks consumedRev hne
  refine ⟨?_, p, hp, heq, ?_⟩
  · rcases create_overlap_budget cfg chunks consumedRev hne with h | h
    · rw [h]
      simp [strLen]
    · omega
  · rw [heq]
    exact joinSp_suffix_of_rev hp

theorem claim_c3_amended_witness :
    strLen (create_overlap_chunk ⟨12, 9, 100, 100000⟩ ["Abcdefghij.".toList]
      ["Xyzab.".toList, "Qrstuvw.".toList, "Abcdefghij.".toList]) ≤ 9 ∧
    ∃ p, p <+: ["Xyzab.".toList, "Qrstuvw.".toList, "Abcdefghij.".toList] ∧
      create_overlap_chunk ⟨12, 9, 100, 100000⟩ ["Abcdefghij.".toList]
        ["Xyzab.".toList, "Qrstuvw.".toList, "Abcdefghij.".toList] =
        joinSp p.reverse ∧
      create_overlap_chunk ⟨12, 9, 100, 100000⟩ ["Abcdefghij.".toList]
        ["Xyzab.".toList, "Qrstuvw.".toList, "Abcdefghij.".toList] <:+
        joinSp (["Xyzab.".toList, "Qrstuvw.".toList,
          "Abcdefghij.".toList] : List Str).reverse :=
  claim_c3_amended ⟨12, 9, 100, 100000⟩ ["Abcdefghij.".toList]
    ["Xyzab.".toList, "Qrstuvw.".toList, "Abcdefghij.".toList] (by decide)

/-- C4 (counterexample): a sentence longer than the target size appears
in full in *three* fragments here, not exactly one: with target 12 and
overlap 100 the 15-byte sentence re-enters later fragments through the
overlap prefix. -/
theorem claim_c4_counterexample :
    split_into_sentences "Abcdefghijklmn. Bcdef. Cdefg.".toList =
      ["Abcdefghijklmn.".toList, "Bcdef.".toList, "Cdefg.".toList] ∧
    (Proc.mk 12 100 100 100000).chunk_size < strLen "Abcdefghijklmn.".toList ∧
    (chunk_text ⟨12, 100, 100, 100000⟩ "Abcdefghijklmn. Bcdef. Cdefg.".toList).countP
      (fun c => decide ("Abcdefghijklmn.".toList <:+: c)) = 3 := by
  decide

/-- C4 (amended): every fragment's byte length is bounded by the target
chunk size plus one (the longest) sentence length plus the overlap
size; and — provided the target size is at least 10, so such a chunk
passes the length filter — a sentence longer than the target size
appears whole (as a contiguous substring) in at least one fragment; it
may recur whole in several consecutive fragments via the overlap, so
"exactly one" does not hold in general. -/
theorem claim_c4_amended (cfg : Proc) (text : Str) :
    (∀ f ∈ chunk_text cfg text,
      strLen f ≤ cfg.chunk_size + maxSentLen (split_into_sentences text) +
        cfg.overlap) ∧
    (10 ≤ cfg.chunk_size →
      ∀ s ∈ split_into_sentences text, cfg.chunk_size < strLen s →
        ∃ f ∈ chunk_text cfg text, s <:+: f) := by
  constructor
  · intro f hf
    unfold chunk_text at hf
    split at hf
    · simp at hf
    · refine chunkGo_bound cfg (maxSentLen (split_into_sentences text)) _ [] [] []
        ?_ (by simp) (by simp [strLen]) (by simp) f hf
      intro x hx
      exact ⟨le_maxSentLen hx, (split_sentences_clean text x hx).2⟩
  · intro hcs s hs hlen
    unfold chunk_text
    split
    · rename_i hte
      rw [hte] at hs
      have hempty : split_into_sentences ([] : Str) = [] := rfl
      rw [hempty] at hs
      simp at hs
    · exact chunkGo_contains cfg hcs hlen _ [] [] [] (split_sentences_clean text)
        (by simp) (Or.inl rfl) (Or.inr (Or.inr hs))

theorem claim_c4_amended_witness :
    10 ≤ (Proc.mk 12 100 100 100000).chunk_size ∧
    "Abcdefghijklmn.".toList ∈
      split_into_sentences "Abcdefghijklmn. Bcdef. Cdefg.".toList ∧
    (Proc.mk 12 100 100 100000).chunk_size < strLen "Abcdefghijklmn.".toList ∧
    ∃ f ∈ chunk_text ⟨12, 100, 100, 100000⟩
        "Abcdefghijklmn. Bcdef. Cdefg.".toList,
      "Abcdefghijklmn.".toList <:+: f :=
  ⟨by decide, by decide, by decide,
    (claim_c4_amended ⟨12, 100, 100, 100000⟩
      "Abcdefghijklmn. Bcdef. Cdefg.".toList).2 (by decide)
      "Abcdefghijklmn.".toList (by decide) (by decide)⟩

/-- C6: under the spec contract for the (spec-modelled) embedding
backend — one non-empty vector per input text — the Phase-2 loop,
given enough fuel (`count + 1` iterations suffice), reaches the
zero-fetch break with every recorded batch non-empty and no unembedded
fragment left; and on 5 unembedded fragments with batch size 2 it
performs exactly the batches 2, 2, 1 and ends with count 0. -/
theorem claim_c6_batch_loop :
    (∀ (embed : EmbedBackend) (b fuel : Nat) (st : List Frag),
      (∀ ts, (embed ts).length = ts.length) →
      (∀ ts, ∀ v ∈ embed ts, v ≠ []) →
      0 < b → (st.map (fun f => f.id)).Nodup →
      countUnembedded st + 1 ≤ fuel →
      ∃ st',
        runPhase2 embed b fuel st =
          .ok (batchSizes b (countUnembedded st), st') ∧
        (∀ n ∈ batchSizes b (countUnembedded st), 0 < n) ∧
        countUnembedded st' = 0 ∧ fetchPairs b st' = []) ∧
    runPhase2 embedOne 2 6 st5 =
      .ok ([2, 2, 1], st5.map (fun f => { f with emb := some [1] })) ∧
    countUnembedded (st5.map (fun f => { f with emb := some [1] })) = 0 ∧
    batchSizes 2 (countUnembedded st5) = [2, 2, 1] := by
  refine ⟨?_, rfl, rfl, ?_⟩
  · intro embed b fuel st hlen hne hb hnd hf
    obtain ⟨st', hr, hc, hfetch, _⟩ := runPhase2_spec hlen hne hb fuel st hnd hf
    exact ⟨st', hr, fun n hn => batchSizes_mem_pos hb _ n hn, hc, hfetch⟩
  · show batchSizes 2 5 = [2, 2, 1]
    rw [batchSizes_pos (by omega) (by omega)]
    norm_num
    rw [batchSizes_pos (by omega) (by omega)]
    norm_num
    rw [batchSizes_pos (by omega) (by omega)]
    norm_num [batchSizes_zero]

theorem claim_c6_batch_loop_witness :
    ∃ st', runPhase2 embedOne 2 6 st5 =
        .ok (batchSizes 2 (countUnembedded st5), st') ∧
      (∀ n ∈ batchSizes 2 (countUnembedded st5), 0 < n) ∧
      countUnembedded st' = 0 ∧ fetchPairs 2 st' = [] :=
  claim_c6_batch_loop.1 embedOne 2 6 st5
    (fun ts => by simp [embedOne])
    (fun ts v hv => by
      obtain ⟨a, _, hav⟩ := List.mem_map.mp hv
      rw [← hav]
      simp)
    (by decide) (by decide) (by decide)

/-- C7: on a fresh store, `verify_or_set_model` with a model name
succeeds and records `(version, model)`; a second call with the same
name verifies and succeeds; a call with a different name fails with the
model-mismatch error; and once both meta keys are set no
`verify_or_set_model` call ever changes them. -/
theorem claim_c7_model_meta :
    ∀ (m1 m2 : String), m2 ≠ m1 →
    verify_or_set_model emptyMeta m1 =
      (⟨some dbVersion, some m1⟩, .ok ()) ∧
    verify_or_set_model ⟨some dbVersion, some m1⟩ m1 =
      (⟨some dbVersion, some m1⟩, .ok ()) ∧
    verify_or_set_model ⟨some dbVersion, some m1⟩ m2 =
      (⟨some dbVersion, some m1⟩, .error (.modelMismatch m2 m1)) ∧
    (∀ (v mdl name : String),
      (verify_or_set_model ⟨some v, some mdl⟩ name).1 = ⟨some v, some mdl⟩) := by
  intro m1 m2 hne
  refine ⟨rfl, ?_, ?_, ?_⟩
  · simp [verify_or_set_model, checkModelMeta]
  · simp [verify_or_set_model, checkModelMeta, Ne.symm hne]
  · intro v mdl name
    by_cases hv : v = dbVersion
    · subst hv
      by_cases hm : mdl = name
      · subst hm
        simp [verify_or_set_model, checkModelMeta]
      · simp [verify_or_set_model, checkModelMeta, hm]
    · simp [verify_or_set_model, hv]

theorem claim_c7_model_meta_witness :
    verify_or_set_model emptyMeta "m1" =
      (⟨some dbVersion, some "m1"⟩, .ok ()) ∧
    verify_or_set_model ⟨some dbVersion, some "m1"⟩ "m1" =
      (⟨some dbVersion, some "m1"⟩, .ok ()) ∧
    verify_or_set_model ⟨some dbVersion, some "m1"⟩ "m2" =
      (⟨some dbVersion, some "m1"⟩, .error (.modelMismatch "m2" "m1")) ∧
    (∀ (v mdl name : String),
      (verify_or_set_model ⟨some v, some mdl⟩ name).1 = ⟨some v, some mdl⟩) :=
  claim_c7_model_meta "m1" "m2" (by decide)

/-- C8: Phase 1 stores the fragments of a document with orders exactly
`0, 1, ..., n-1` (contiguous and duplicate-free, given that the fresh
document id owns no prior fragments), and Phase 2 — whether one
`update_fragment_embedding` or the whole batch loop — never deletes,
re-orders, or rewrites a fragment: it preserves the entire
`(id, document, order, content)` row list and only attaches embedding
vectors. -/
theorem claim_c8_fragment_orders :
    (∀ (d nextId : Nat) (contents : List Nat) (st : List Frag),
      (∀ f ∈ st, f.doc ≠ d) →
      ((storeFragments d nextId contents st).filter
        (fun f => f.doc = d)).map (fun f => f.order) =
        List.range contents.length ∧
      (((storeFragments d nextId contents st).filter
        (fun f => f.doc = d)).map (fun f => f.order)).Nodup) ∧
    (∀ (embed : EmbedBackend) (b fuel : Nat) (st : List Frag)
      (sizes : List Nat) (st' : List Frag),
      runPhase2 embed b fuel st = .ok (sizes, st') →
      st'.map eraseEmb = st.map eraseEmb) ∧
    (∀ (fid : Nat) (v : List Int) (st : List Frag),
      (updateFrag fid v st).map eraseEmb = st.map eraseEmb) := by
  refine ⟨?_, ?_, ?_⟩
  · intro d nextId contents st hfresh
    have h := storeFragments_orders nextId contents hfresh
    exact ⟨h, by rw [h]; exact List.nodup_range _⟩
  · intro embed b fuel st sizes st' h
    exact eraseEmb_runPhase2 h
  · exact eraseEmb_updateFrag

theorem claim_c8_fragment_orders_witness :
    ((storeFragments 1 0 [7, 8, 9] [⟨0, 0, 0, 5, none⟩]).filter
      (fun f => f.doc = 1)).map (fun f => f.order) = List.range 3 ∧
    (((storeFragments 1 0 [7, 8, 9] [⟨0, 0, 0, 5, none⟩]).filter
      (fun f => f.doc = 1)).map (fun f => f.order)).Nodup :=
  claim_c8_fragment_orders.1 1 0 [7, 8, 9] [⟨0, 0, 0, 5, none⟩] (by decide)

end PortableBrains
